import Mathlib

/-!
# Deterministic lock manager (`src/txn/lock_manager.cc`)

A shallow embedding of the two lock managers of the repository:

* `LockManagerA` : exclusive locks only;
* `LockManagerB` : shared and exclusive locks with a per-key counter of
  exclusive requests.

Modelling conventions.

* `Txn*` values are compared by address only, `Key` values by equality only;
  both are natural numbers here.
* `lock_table_` is read and written through `_getLockQueue` alone, which makes
  a missing entry indistinguishable from an empty queue; it is a total function
  from keys to queues (a `deque` is a list, front first).
* `txn_waits_` is a map whose membership is observable (`find`, `erase`), so it
  is a function into `Option Int`; `operator[]` reads a missing entry as `0`.
* `_numExclusiveWaiting` is only ever accessed with `operator[]`, so a missing
  entry is `0` and the map is a function into `Int`.
* `ready_txns_` points to a deque owned by the caller; it is a list, and
  `push_back` appends at its end.
* The counters are C++ `int`; they are mathematical integers here (the header
  fixing their width is not part of the sources, and a counter moves by one
  per call).
-/

namespace LockMgr

/-- A `Txn*`: the lock managers only compare and store these pointers. -/
abbrev Txn := Nat

/-- Modelled from the spec: the type `Key` of the missing headers, used only
as a map key. -/
abbrev Key := Nat

/-- Modelled from the spec: the enumeration `LockMode` of `txn/lock_manager.h`
(the header is not among the sources). The code uses the three constants
`UNLOCKED`, `SHARED` and `EXCLUSIVE`. -/
inductive LockMode where
  | UNLOCKED
  | SHARED
  | EXCLUSIVE
deriving DecidableEq, Repr

open LockMode

/-- Modelled from the spec: the struct `LockManager::LockRequest` of
`txn/lock_manager.h`, built by `LockRequest(mode, txn)` and read through
`mode_` and `txn_`. -/
structure LockRequest where
  mode_ : LockMode
  txn_ : Txn
deriving DecidableEq, Repr

/-- Pointwise overwrite of a map: `m[a] = v`. -/
def setAt {β : Type} (f : Nat → β) (a : Nat) (v : β) : Nat → β :=
  fun x => if x = a then v else f x

/-! ## LockManagerA -/

/-- State of a `LockManagerA`: the members `lock_table_`, `txn_waits_` and the
deque behind `ready_txns_`. The members are declared in `txn/lock_manager.h`,
which is not among the sources; their types are read off their uses. -/
structure LockManagerA where
  lock_table_ : Key → List LockRequest
  txn_waits_ : Txn → Option Int
  ready_txns_ : List Txn

namespace LockManagerA

/-- State after the constructor `LockManagerA(ready_txns)`. -/
def new (ready_txns : List Txn) : LockManagerA :=
  { lock_table_ := fun _ => [], txn_waits_ := fun _ => none, ready_txns_ := ready_txns }

/-- Embedding of `LockManagerA::WriteLock` (lines 40-52). -/
def WriteLock (s : LockManagerA) (txn : Txn) (key : Key) : Bool × LockManagerA :=
  let LockQueue := s.lock_table_ key
  let lockRequest : LockRequest := ⟨EXCLUSIVE, txn⟩
  let empty := LockQueue.isEmpty
  let s1 := { s with lock_table_ := setAt s.lock_table_ key (LockQueue ++ [lockRequest]) }
  if !empty then
    (empty, { s1 with txn_waits_ := setAt s1.txn_waits_ txn (some ((s1.txn_waits_ txn).getD 0 + 1)) })
  else
    (empty, s1)

/-- Embedding of `LockManagerA::ReadLock` (lines 55-59). -/
def ReadLock (s : LockManagerA) (txn : Txn) (key : Key) : Bool × LockManagerA :=
  WriteLock s txn key

/-- The `while` loop of `LockManagerA::Release` (lines 67-74): the queue after
the loop and the final value of `removedOwner`, given its current value. -/
def releaseLoop (txn : Txn) : List LockRequest → Bool → List LockRequest × Bool
  | [], removedOwner => ([], removedOwner)
  | r :: rest, removedOwner =>
    if r.txn_ = txn then (rest, removedOwner)
    else
      let res := releaseLoop txn rest false
      (r :: res.1, res.2)

/-- Embedding of `LockManagerA::Release` (lines 62-92). -/
def Release (s : LockManagerA) (txn : Txn) (key : Key) : LockManagerA :=
  let res := releaseLoop txn (s.lock_table_ key) true
  let queue := res.1
  let removedOwner := res.2
  let s1 := { s with lock_table_ := setAt s.lock_table_ key queue }
  match queue with
  | [] => s1
  | next :: _ =>
    if removedOwner then
      let c := (s1.txn_waits_ next.txn_).getD 0 - 1
      if c = 0 then
        { s1 with ready_txns_ := s1.ready_txns_ ++ [next.txn_],
                  txn_waits_ := setAt s1.txn_waits_ next.txn_ none }
      else
        { s1 with txn_waits_ := setAt s1.txn_waits_ next.txn_ (some c) }
    else s1

/-- Embedding of `LockManagerA::Status` (lines 95-105). `owners` is the content
of the caller's vector on entry; the second component is its content on
return. -/
def Status (s : LockManagerA) (key : Key) (owners : List Txn) : LockMode × List Txn :=
  match s.lock_table_ key with
  | [] => (UNLOCKED, owners)
  | front :: _ => (EXCLUSIVE, [front.txn_])

end LockManagerA

/-! ## LockManagerB -/

/-- State of a `LockManagerB`: the three members it shares with `LockManagerA`
and the map `_numExclusiveWaiting`. -/
structure LockManagerB where
  lock_table_ : Key → List LockRequest
  txn_waits_ : Txn → Option Int
  ready_txns_ : List Txn
  _numExclusiveWaiting : Key → Int

/-- Value obtained by `it->mode_` on line 149. The read comes after
`queue->erase(it)` on line 148, which invalidates `it`, so C++ does not define
it. The embedding takes the read as a parameter: from the queue before the
erase and the index erased to the mode found. -/
abbrev ErasedSlot := List LockRequest → Nat → LockMode

/-- The read of line 149 as the code means it: the mode of the request that was
erased. -/
def slotOfErased : ErasedSlot :=
  fun q i => match q.get? i with
    | some r => r.mode_
    | none => UNLOCKED

/-- The read of line 149 with the `deque::erase` of libstdc++: an index below
`size / 2` shifts the front part up by one slot and pops the front, any other
index shifts the back part down by one slot and pops the back; the slot of
`it` then holds the neighbour that was moved into it, and the erased request
itself when nothing was moved. -/
def slotLibstdcxx : ErasedSlot :=
  fun q i =>
    let j := if i < q.length / 2 then i - 1 else if i + 1 < q.length then i + 1 else i
    match q.get? j with
    | some r => r.mode_
    | none => UNLOCKED

namespace LockManagerB

/-- State after the constructor `LockManagerB(ready_txns)`. -/
def new (ready_txns : List Txn) : LockManagerB :=
  { lock_table_ := fun _ => [], txn_waits_ := fun _ => none, ready_txns_ := ready_txns,
    _numExclusiveWaiting := fun _ => 0 }

/-- The `for` loop of `LockManagerB::Status` (lines 181-190): the final values
of `mode` and `txn_owners`, given their current values. -/
def statusLoop : List LockRequest → LockMode → List Txn → LockMode × List Txn
  | [], mode, txn_owners => (mode, txn_owners)
  | lockRequest :: rest, mode, txn_owners =>
    if lockRequest.mode_ = EXCLUSIVE ∧ mode = SHARED then (mode, txn_owners)
    else
      let txn_owners1 := txn_owners ++ [lockRequest.txn_]
      let mode1 := lockRequest.mode_
      if mode1 = EXCLUSIVE then (mode1, txn_owners1)
      else statusLoop rest mode1 txn_owners1

/-- Embedding of `LockManagerB::Status` (lines 173-196). `owners` is `none` for
a null pointer and otherwise the content of the caller's vector on entry; the
second component is the content on return. -/
def Status (s : LockManagerB) (key : Key) (owners : Option (List Txn)) :
    LockMode × Option (List Txn) :=
  let dq := s.lock_table_ key
  if dq.isEmpty then (UNLOCKED, owners)
  else
    let res := statusLoop dq EXCLUSIVE []
    match owners with
    | some _ => (res.1, some res.2)
    | none => (res.1, none)

/-- Embedding of `LockManagerB::_noExclusiveWaiting` (lines 199-201). -/
def _noExclusiveWaiting (s : LockManagerB) (key : Key) : Bool :=
  s._numExclusiveWaiting key == 0

/-- Embedding of `LockManagerB::_addLock` (lines 112-130). -/
def _addLock (s : LockManagerB) (lockMode : LockMode) (txn : Txn) (key : Key) :
    Bool × LockManagerB :=
  let status := (s.Status key none).1
  let request : LockRequest := ⟨lockMode, txn⟩
  let s1 := { s with lock_table_ := setAt s.lock_table_ key (s.lock_table_ key ++ [request]) }
  let grantAccess0 : Bool := status == UNLOCKED
  let res : Bool × LockManagerB :=
    if lockMode = SHARED then (grantAccess0 || s1._noExclusiveWaiting key, s1)
    else
      let n := s1._numExclusiveWaiting key + 1
      (grantAccess0, { s1 with _numExclusiveWaiting := setAt s1._numExclusiveWaiting key n })
  let grantAccess := res.1
  let s2 := res.2
  if !grantAccess then
    (grantAccess, { s2 with txn_waits_ := setAt s2.txn_waits_ txn (some ((s2.txn_waits_ txn).getD 0 + 1)) })
  else
    (grantAccess, s2)

/-- Embedding of `LockManagerB::WriteLock` (lines 133-135). -/
def WriteLock (s : LockManagerB) (txn : Txn) (key : Key) : Bool × LockManagerB :=
  s._addLock EXCLUSIVE txn key

/-- Embedding of `LockManagerB::ReadLock` (lines 138-140). -/
def ReadLock (s : LockManagerB) (txn : Txn) (key : Key) : Bool × LockManagerB :=
  s._addLock SHARED txn key

/-- Index reached by the `for` loop of `LockManagerB::Release` (lines 146-155)
when it finds a request of `txn`, `none` when it runs to the end. -/
def firstOwned (txn : Txn) : List LockRequest → Option Nat
  | [] => none
  | r :: rest => if r.txn_ = txn then some 0 else (firstOwned txn rest).map (· + 1)

/-- The second `for` loop of `LockManagerB::Release` (lines 163-169). -/
def wakeOwners : List Txn → LockManagerB → LockManagerB
  | [], s => s
  | owner :: rest, s =>
    match s.txn_waits_ owner with
    | some c =>
      if c - 1 = 0 then
        wakeOwners rest
          { s with ready_txns_ := s.ready_txns_ ++ [owner],
                   txn_waits_ := setAt s.txn_waits_ owner none }
      else
        wakeOwners rest { s with txn_waits_ := setAt s.txn_waits_ owner (some (c - 1)) }
    | none => wakeOwners rest s

/-- Embedding of `LockManagerB::Release` (lines 143-170); `slot` gives the
value read by `it->mode_` after the erase. -/
def Release (slot : ErasedSlot) (s : LockManagerB) (txn : Txn) (key : Key) : LockManagerB :=
  let queue := s.lock_table_ key
  let s1 : LockManagerB :=
    match firstOwned txn queue with
    | some i =>
      let s0 := { s with lock_table_ := setAt s.lock_table_ key (queue.eraseIdx i) }
      if slot queue i = EXCLUSIVE then
        let n := s0._numExclusiveWaiting key - 1
        { s0 with _numExclusiveWaiting := setAt s0._numExclusiveWaiting key n }
      else s0
    | none => s
  let newOwners : List Txn := ((s1.Status key (some [])).2).getD []
  wakeOwners newOwners s1

end LockManagerB

/-! ## Sequences of calls and the counts the invariants speak of -/

/-- One call of the public interface that changes the state. -/
inductive Call where
  | WriteLock (txn : Txn) (key : Key)
  | ReadLock (txn : Txn) (key : Key)
  | Release (txn : Txn) (key : Key)
deriving DecidableEq, Repr

namespace LockManagerA

/-- State of a `LockManagerA` after one call. -/
def step (s : LockManagerA) : Call → LockManagerA
  | .WriteLock txn key => (s.WriteLock txn key).2
  | .ReadLock txn key => (s.ReadLock txn key).2
  | .Release txn key => s.Release txn key

/-- State of a `LockManagerA` after a sequence of calls, first call first. -/
def run (s : LockManagerA) : List Call → LockManagerA
  | [] => s
  | c :: cs => run (s.step c) cs

end LockManagerA

/-- Number of requests of `t` in the queue `q` that are not at its head. -/
def ungranted (t : Txn) (q : List LockRequest) : Nat :=
  q.tail.countP (fun r => r.txn_ == t)

/-- Number of requests of `t` that are not at the head of their queue, over the
keys listed in `ks`. -/
def pending (tbl : Key → List LockRequest) (ks : List Key) (t : Txn) : Nat :=
  (ks.map (fun k => ungranted t (tbl k))).sum

/-- The list `ks` names every key with a non-empty queue, each key once, so
that `pending tbl ks` counts over all keys. -/
def Covers (tbl : Key → List LockRequest) (ks : List Key) : Prop :=
  ks.Nodup ∧ ∀ k, tbl k ≠ [] → k ∈ ks

/-- The entry of `txn_waits_` that stands for a count: no entry for zero. -/
def waitEntry (n : Nat) : Option Int :=
  if n = 0 then none else some (n : Int)

/-- `Release(txn, key)` in state `s` removes a request that is behind the head
of its queue: the head belongs to another transaction and a later request
belongs to `txn`. -/
def releasesQueued (s : LockManagerA) (txn : Txn) (key : Key) : Bool :=
  match s.lock_table_ key with
  | [] => false
  | head :: rest => head.txn_ != txn && rest.any (fun r => r.txn_ == txn)

/-- Number of calls `Release(t, _)` in the sequence `cs`, run from `s`, that
remove a request of `t` from behind the head of its queue. -/
def earlyReleases (s : LockManagerA) : List Call → Txn → Nat
  | [], _ => 0
  | c :: cs, t =>
    (match c with
      | .Release txn key => if txn = t ∧ releasesQueued s txn key = true then 1 else 0
      | _ => 0) + earlyReleases (s.step c) cs t

/-- Every `Release(txn, key)` of the sequence `cs`, run from `s`, is issued
while the queue of `key` holds a request of `txn`. -/
def releasesHeld (s : LockManagerA) : List Call → Bool
  | [] => true
  | c :: cs =>
    (match c with
      | .Release txn key => (s.lock_table_ key).any (fun r => r.txn_ == txn)
      | _ => true) && releasesHeld (s.step c) cs

/-- The wait counts are exact up to `e`: over any cover of the lock table, the
entry of `t` stands for the number of its requests that are not at the head of
their queue plus `e t`. -/
def WaitInv (s : LockManagerA) (e : Txn → Nat) : Prop :=
  ∀ ks, Covers s.lock_table_ ks → ∀ t,
    s.txn_waits_ t = waitEntry (pending s.lock_table_ ks t + e t)

namespace LockManagerB

/-- State of a `LockManagerB` after one call; `slot` gives the value read by
`it->mode_` after the erase in `Release`. -/
def step (slot : ErasedSlot) (s : LockManagerB) : Call → LockManagerB
  | .WriteLock txn key => (s.WriteLock txn key).2
  | .ReadLock txn key => (s.ReadLock txn key).2
  | .Release txn key => Release slot s txn key

/-- State of a `LockManagerB` after a sequence of calls, first call first. -/
def run (slot : ErasedSlot) (s : LockManagerB) : List Call → LockManagerB
  | [] => s
  | c :: cs => run slot (step slot s c) cs

/-- The queue of `key` after the first loop of `Release`: the first request of
`txn` is erased, if there is one. -/
def erased (txn : Txn) (q : List LockRequest) : List LockRequest :=
  match firstOwned txn q with
  | some i => q.eraseIdx i
  | none => q

end LockManagerB

/-- Number of `EXCLUSIVE` requests in a queue. -/
def exclusiveCount (q : List LockRequest) : Nat :=
  q.countP (fun r => decide (r.mode_ = EXCLUSIVE))

/-- Every entry of a wait map is at least one. -/
def PositiveWaits (w : Txn → Option Int) : Prop :=
  ∀ t v, w t = some v → 1 ≤ v

/-- No queue of the lock table stores a request of mode `UNLOCKED`: every
request was built by `ReadLock` or `WriteLock`. -/
def NoUnlocked (tbl : Key → List LockRequest) : Prop :=
  ∀ k, ∀ r ∈ tbl k, r.mode_ ≠ UNLOCKED

/-- The counter of every key is the number of exclusive requests in its
queue. -/
def CounterInv (s : LockManagerB) : Prop :=
  ∀ key, s._numExclusiveWaiting key = (exclusiveCount (s.lock_table_ key) : Int)

/-- Value of `mode` in the loop of `LockManagerB::Status` after it has pushed
every request of `q`, starting from `mode`. -/
def lastMode : List LockRequest → LockMode → LockMode
  | [], mode => mode
  | r :: rest, _ => lastMode rest r.mode_

/-- The calls `WriteLock(t, K)` for the transactions `t` of `ts`, in order. -/
def acquireAll (ts : List Txn) (K : Key) : List Call :=
  ts.map (fun t => Call.WriteLock t K)

/-- The calls `Release(t, K)` for the transactions `t` of `ts`, in order. -/
def releaseAll (ts : List Txn) (K : Key) : List Call :=
  ts.map (fun t => Call.Release t K)

/-- The queue of `K` holds one exclusive request for each transaction of
`ts`, in order; the transactions behind the head have wait count `1` and no
other transaction has an entry; the ready deque is `ready`. -/
def FifoState (s : LockManagerA) (K : Key) (ts : List Txn) (ready : List Txn) : Prop :=
  s.lock_table_ K = ts.map (fun t => (⟨EXCLUSIVE, t⟩ : LockRequest))
    ∧ (∀ t, s.txn_waits_ t = if t ∈ ts.tail then some 1 else none)
    ∧ s.ready_txns_ = ready

/-- Every `Release(txn, key)` of the sequence `cs`, run from `s`, is issued
while the head of the queue of `key` is a request of `txn`. -/
def releasesOwned (s : LockManagerA) : List Call → Bool
  | [] => true
  | c :: cs =>
    (match c with
      | .Release txn key =>
        (match s.lock_table_ key with
          | [] => false
          | head :: _ => head.txn_ == txn)
      | _ => true) && releasesOwned (s.step c) cs

/-- A `LockManagerA` in which transaction `1` holds key `5` and transaction `2`
waits for it. -/
def exampleA : LockManagerA :=
  (((LockManagerA.new []).WriteLock 1 5).2.WriteLock 2 5).2

/-- Transaction `1` takes key `5`, transaction `2` queues behind it and then
releases its request while it is still queued. -/
def earlyTrace : List Call :=
  [.WriteLock 1 5, .WriteLock 2 5, .Release 2 5]

/-- After `earlyTrace`, transaction `3` takes key `7`, transaction `2` queues
behind it, and `3` releases: `2` is now the owner of key `7`. -/
def stallTrace : List Call :=
  earlyTrace ++ [.WriteLock 3 7, .WriteLock 2 7, .Release 3 7]

/-- Transactions `1` and `2` ask for keys `5` and `6` in that order, then `1`
releases key `5`, which it owns. -/
def ownerTrace : List Call :=
  [.WriteLock 1 5, .WriteLock 2 5, .WriteLock 1 6, .WriteLock 2 6, .Release 1 5]

/-- Transactions `1`, `2` and `3` read key `5`, transaction `4` asks to write
it, and `3` is the first to release. -/
def readerTrace : List Call :=
  [.ReadLock 1 5, .ReadLock 2 5, .ReadLock 3 5, .WriteLock 4 5, .Release 3 5]

/-- A `LockManagerB` in which `1` and `2` share key `5` and `3` waits to write
it. -/
def exampleB : LockManagerB :=
  ((((LockManagerB.new []).ReadLock 1 5).2.ReadLock 2 5).2.WriteLock 3 5).2

/-- A `LockManagerB` in which `1` holds key `5` exclusively and `2` waits to
read it. -/
def exampleBX : LockManagerB :=
  (((LockManagerB.new []).WriteLock 1 5).2.ReadLock 2 5).2

/-! ## Basic facts -/

@[simp] theorem setAt_same {β : Type} (f : Nat → β) (a : Nat) (v : β) : setAt f a v a = v := by
  simp [setAt]

/-- Reading a map away from the overwritten key. -/
theorem setAt_ne {β : Type} (f : Nat → β) {a x : Nat} (v : β) (h : x ≠ a) :
    setAt f a v x = f x := by
  simp [setAt, h]

/-- Overwriting a key with its own value changes nothing. -/
theorem setAt_self {β : Type} (f : Nat → β) (a : Nat) : setAt f a (f a) = f := by
  funext x
  by_cases h : x = a <;> simp [setAt, h]

@[simp] theorem setAt_setAt {β : Type} (f : Nat → β) (a : Nat) (v w : β) :
    setAt (setAt f a v) a w = setAt f a w := by
  funext x
  by_cases h : x = a <;> simp [setAt, h]

/-! ### `LockManagerB::Status` -/

namespace LockManagerB

/-- Running the loop of `Status` with `mode == SHARED` over a queue without
`UNLOCKED` requests collects the leading shared requests. -/
theorem statusLoop_shared (q : List LockRequest) (acc : List Txn)
    (hq : ∀ r ∈ q, r.mode_ ≠ UNLOCKED) :
    statusLoop q SHARED acc
      = (SHARED, acc ++ (q.takeWhile (fun r => decide (r.mode_ = SHARED))).map (·.txn_)) := by
  induction q generalizing acc with
  | nil => simp [statusLoop]
  | cons r rest ih =>
    have hr := hq r (List.mem_cons_self _ _)
    have hrest : ∀ x ∈ rest, x.mode_ ≠ UNLOCKED := fun x hx => hq x (List.mem_cons_of_mem _ hx)
    cases hm : r.mode_ with
    | UNLOCKED => exact absurd hm hr
    | SHARED =>
      rw [statusLoop]
      simp [hm, ih _ hrest, List.takeWhile_cons]
    | EXCLUSIVE =>
      rw [statusLoop]
      simp [hm, List.takeWhile_cons]

/-- `Status` on a queue whose head is exclusive. -/
theorem Status_exclusive_head (s : LockManagerB) (key : Key) (r : LockRequest)
    (rest : List LockRequest) (o : List Txn)
    (hq : s.lock_table_ key = r :: rest) (hr : r.mode_ = EXCLUSIVE) :
    s.Status key (some o) = (EXCLUSIVE, some [r.txn_]) := by
  simp [Status, hq, statusLoop, hr]

/-- `Status` on a queue whose head is shared and that stores no `UNLOCKED`
request. -/
theorem Status_shared_head (s : LockManagerB) (key : Key) (r : LockRequest)
    (rest : List LockRequest) (o : List Txn)
    (hq : s.lock_table_ key = r :: rest) (hr : r.mode_ = SHARED)
    (hwf : ∀ x ∈ s.lock_table_ key, x.mode_ ≠ UNLOCKED) :
    s.Status key (some o)
      = (SHARED, some (((s.lock_table_ key).takeWhile
          (fun r => decide (r.mode_ = SHARED))).map (·.txn_))) := by
  have hrest : ∀ x ∈ rest, x.mode_ ≠ UNLOCKED := by
    intro x hx
    exact hwf x (by rw [hq]; exact List.mem_cons_of_mem _ hx)
  simp [Status, hq, statusLoop, hr, statusLoop_shared rest _ hrest, List.takeWhile_cons]

/-- The mode returned by `Status` does not depend on the `owners` argument. -/
theorem Status_mode (s : LockManagerB) (key : Key) (o : Option (List Txn)) :
    (s.Status key o).1 = (s.Status key none).1 := by
  unfold Status
  cases o <;> simp
  split <;> rfl

/-- `Status` reports `UNLOCKED` on an empty queue. -/
theorem Status_of_nil (s : LockManagerB) (key : Key) (o : Option (List Txn))
    (hq : s.lock_table_ key = []) : s.Status key o = (UNLOCKED, o) := by
  simp [Status, hq]

end LockManagerB

/-! ### The scan of `Release` -/

/-- A queue holding a request of `txn` splits at the first such request. -/
theorem exists_first_owned (txn : Txn) (q : List LockRequest)
    (h : ∃ r ∈ q, r.txn_ = txn) :
    ∃ l1 r l2, q = l1 ++ r :: l2 ∧ r.txn_ = txn ∧ ∀ x ∈ l1, x.txn_ ≠ txn := by
  induction q with
  | nil => simp at h
  | cons a rest ih =>
    by_cases ha : a.txn_ = txn
    · exact ⟨[], a, rest, rfl, ha, by simp⟩
    · obtain ⟨r, hr, hrt⟩ := h
      have hr2 : r ∈ rest := by
        rcases List.mem_cons.mp hr with h1 | h1
        · exact absurd (h1 ▸ hrt) ha
        · exact h1
      obtain ⟨l1, r1, l2, hq, hr1, hl1⟩ := ih ⟨r, hr2, hrt⟩
      refine ⟨a :: l1, r1, l2, by simp [hq], hr1, ?_⟩
      intro x hx
      rcases List.mem_cons.mp hx with h1 | h1
      · exact h1 ▸ ha
      · exact hl1 x h1

namespace LockManagerA

/-- The loop of `Release` on a queue split at the first request of `txn`. -/
theorem releaseLoop_split (txn : Txn) (l1 : List LockRequest) (r : LockRequest)
    (l2 : List LockRequest) (b : Bool) (hr : r.txn_ = txn) (hl1 : ∀ x ∈ l1, x.txn_ ≠ txn) :
    releaseLoop txn (l1 ++ r :: l2) b = (l1 ++ l2, if l1 = [] then b else false) := by
  induction l1 generalizing b with
  | nil => simp [releaseLoop, hr]
  | cons a rest ih =>
    have ha : a.txn_ ≠ txn := hl1 a (List.mem_cons_self _ _)
    have hrest : ∀ x ∈ rest, x.txn_ ≠ txn := fun x hx => hl1 x (List.mem_cons_of_mem _ hx)
    rw [List.cons_append, releaseLoop, if_neg ha, ih false hrest]
    simp

/-- The loop of `Release` on a queue without a request of `txn`. -/
theorem releaseLoop_absent (txn : Txn) (q : List LockRequest) (b : Bool)
    (hq : ∀ x ∈ q, x.txn_ ≠ txn) :
    releaseLoop txn q b = (q, if q = [] then b else false) := by
  induction q generalizing b with
  | nil => simp [releaseLoop]
  | cons a rest ih =>
    have ha : a.txn_ ≠ txn := hq a (List.mem_cons_self _ _)
    have hrest : ∀ x ∈ rest, x.txn_ ≠ txn := fun x hx => hq x (List.mem_cons_of_mem _ hx)
    rw [releaseLoop, if_neg ha, ih false hrest]
    simp

/-- The queues after `LockManagerA::Release`: only the queue of `key` is
rewritten, with the result of the loop. -/
theorem Release_queues (s : LockManagerA) (txn : Txn) (key : Key) :
    (s.Release txn key).lock_table_
      = setAt s.lock_table_ key (releaseLoop txn (s.lock_table_ key) true).1 := by
  unfold Release
  generalize releaseLoop txn (s.lock_table_ key) true = res
  obtain ⟨q, b⟩ := res
  cases q with
  | nil => rfl
  | cons n rest =>
    cases b
    · rfl
    · simp only [if_true]
      by_cases hc : (s.txn_waits_ n.txn_).getD 0 - 1 = 0 <;> simp [hc]

end LockManagerA

namespace LockManagerB

/-- The scan of `Release` on a queue split at the first request of `txn`. -/
theorem firstOwned_split (txn : Txn) (l1 : List LockRequest) (r : LockRequest)
    (l2 : List LockRequest) (hr : r.txn_ = txn) (hl1 : ∀ x ∈ l1, x.txn_ ≠ txn) :
    firstOwned txn (l1 ++ r :: l2) = some l1.length := by
  induction l1 with
  | nil => simp [firstOwned, hr]
  | cons a rest ih =>
    have ha : a.txn_ ≠ txn := hl1 a (List.mem_cons_self _ _)
    have hrest : ∀ x ∈ rest, x.txn_ ≠ txn := fun x hx => hl1 x (List.mem_cons_of_mem _ hx)
    simp [firstOwned, ha, ih hrest]

/-- The scan of `Release` on a queue without a request of `txn`. -/
theorem firstOwned_absent (txn : Txn) (q : List LockRequest) (hq : ∀ x ∈ q, x.txn_ ≠ txn) :
    firstOwned txn q = none := by
  induction q with
  | nil => rfl
  | cons a rest ih =>
    have ha : a.txn_ ≠ txn := hq a (List.mem_cons_self _ _)
    have hrest : ∀ x ∈ rest, x.txn_ ≠ txn := fun x hx => hq x (List.mem_cons_of_mem _ hx)
    simp [firstOwned, ha, ih hrest]

@[simp] theorem wakeOwners_lock_table (os : List Txn) (s : LockManagerB) :
    (wakeOwners os s).lock_table_ = s.lock_table_ := by
  induction os generalizing s with
  | nil => rfl
  | cons o rest ih =>
    rw [wakeOwners]
    split
    · split <;> simp [ih]
    · exact ih s

@[simp] theorem wakeOwners_numExclusiveWaiting (os : List Txn) (s : LockManagerB) :
    (wakeOwners os s)._numExclusiveWaiting = s._numExclusiveWaiting := by
  induction os generalizing s with
  | nil => rfl
  | cons o rest ih =>
    rw [wakeOwners]
    split
    · split <;> simp [ih]
    · exact ih s

/-- Whatever the read of line 149 returns, `LockManagerB::Release` takes the
first request of `txn` out of the queue of `key` and keeps the others in
order. -/
theorem Release_removes_first (slot : ErasedSlot) (s : LockManagerB) (txn : Txn) (key : Key)
    (l1 : List LockRequest) (r : LockRequest) (l2 : List LockRequest)
    (hq : s.lock_table_ key = l1 ++ r :: l2) (hr : r.txn_ = txn)
    (hl1 : ∀ x ∈ l1, x.txn_ ≠ txn) :
    (Release slot s txn key).lock_table_ key = l1 ++ l2 := by
  unfold Release
  simp only [wakeOwners_lock_table, hq, firstOwned_split txn l1 r l2 hr hl1]
  split <;> simp [List.eraseIdx_append_of_length_le]

/-- The read of line 149 only decides the value of `_numExclusiveWaiting`: for
some value `n` of that map, `Release` is the wake-up loop run on the state with
the request erased and `_numExclusiveWaiting = n`. -/
theorem Release_unfold (slot : ErasedSlot) (s : LockManagerB) (txn : Txn) (key : Key) :
    ∃ n : Key → Int, Release slot s txn key =
      let q := match firstOwned txn (s.lock_table_ key) with
        | some i => (s.lock_table_ key).eraseIdx i
        | none => s.lock_table_ key
      let s1 : LockManagerB :=
        { s with lock_table_ := setAt s.lock_table_ key q, _numExclusiveWaiting := n }
      wakeOwners (((s1.Status key (some [])).2).getD []) s1 := by
  cases hf : firstOwned txn (s.lock_table_ key) with
  | none =>
    refine ⟨s._numExclusiveWaiting, ?_⟩
    simp only [Release, hf, setAt_self]
  | some i =>
    by_cases hc : slot (s.lock_table_ key) i = EXCLUSIVE
    · refine ⟨setAt s._numExclusiveWaiting key (s._numExclusiveWaiting key - 1), ?_⟩
      simp only [Release, hf, hc, if_true]
    · refine ⟨s._numExclusiveWaiting, ?_⟩
      simp only [Release, hf, hc, if_false]

end LockManagerB

/-! ### Counting requests behind the head -/

/-- Rewriting the queue of a key outside `ks` does not change the count over `ks`. -/
theorem pending_setAt_notin (tbl : Key → List LockRequest) (ks : List Key) (k : Key)
    (q : List LockRequest) (t : Txn) (hk : k ∉ ks) :
    pending (setAt tbl k q) ks t = pending tbl ks t := by
  induction ks with
  | nil => rfl
  | cons a rest ih =>
    have ha : a ≠ k := fun h => hk (h ▸ List.mem_cons_self _ _)
    have hr : k ∉ rest := fun h => hk (List.mem_cons_of_mem _ h)
    simp only [pending, List.map_cons, List.sum_cons] at ih ⊢
    rw [setAt_ne _ _ ha, ih hr]

/-- Rewriting the queue of a key of `ks` changes the count over `ks` by the change at that key. -/
theorem pending_setAt (tbl : Key → List LockRequest) (ks : List Key) (k : Key)
    (q : List LockRequest) (t : Txn) (hnd : ks.Nodup) (hk : k ∈ ks) :
    pending (setAt tbl k q) ks t + ungranted t (tbl k) = pending tbl ks t + ungranted t q := by
  induction ks with
  | nil => simp at hk
  | cons a rest ih =>
    have hnd2 := List.nodup_cons.mp hnd
    by_cases ha : a = k
    · subst ha
      have := pending_setAt_notin tbl rest a q t hnd2.1
      simp only [pending, List.map_cons, List.sum_cons, setAt_same] at this ⊢
      omega
    · have hk2 : k ∈ rest := by
        rcases List.mem_cons.mp hk with h | h
        · exact absurd h.symm ha
        · exact h
      have := ih hnd2.2 hk2
      simp only [pending, List.map_cons, List.sum_cons, setAt_ne _ _ ha] at this ⊢
      omega

/-- Rewriting the queue of one key: every cover of the new table extends to a
cover of the old one, and the counts differ by the change at that key. -/
theorem pending_step (tbl : Key → List LockRequest) (k : Key) (q : List LockRequest)
    (ks : List Key) (hc : Covers (setAt tbl k q) ks) :
    ∃ ks1, Covers tbl ks1 ∧
      ∀ t, pending (setAt tbl k q) ks t + ungranted t (tbl k) = pending tbl ks1 t + ungranted t q := by
  by_cases hk : k ∈ ks
  · refine ⟨ks, ⟨hc.1, ?_⟩, fun t => pending_setAt tbl ks k q t hc.1 hk⟩
    intro k' hk'
    by_cases h : k' = k
    · exact h ▸ hk
    · exact hc.2 k' (by rwa [setAt_ne _ _ h])
  · have hq : q = [] := by
      by_contra hne
      exact hk (hc.2 k (by simpa using hne))
    refine ⟨k :: ks, ⟨List.nodup_cons.mpr ⟨hk, hc.1⟩, ?_⟩, ?_⟩
    · intro k' hk'
      by_cases h : k' = k
      · exact h ▸ List.mem_cons_self _ _
      · exact List.mem_cons_of_mem _ (hc.2 k' (by rwa [setAt_ne _ _ h]))
    · intro t
      have h1 := pending_setAt tbl (k :: ks) k q t (List.nodup_cons.mpr ⟨hk, hc.1⟩)
        (List.mem_cons_self _ _)
      have h2 : pending (setAt tbl k q) (k :: ks) t = pending (setAt tbl k q) ks t := by
        simp [pending, hq, ungranted]
      omega

/-- Reading an entry with `operator[]` gives back the count it stands for. -/
theorem waitEntry_getD (n : Nat) : (waitEntry n).getD 0 = (n : Int) := by
  unfold waitEntry
  by_cases h : n = 0 <;> simp [h]

/-- A positive count has an entry. -/
theorem waitEntry_succ (n : Nat) : waitEntry (n + 1) = some ((n : Int) + 1) := by
  simp [waitEntry]

/-- A request appended to a non-empty queue is behind the head. -/
theorem ungranted_append_one (t : Txn) (q : List LockRequest) (r : LockRequest) :
    ungranted t (q ++ [r])
      = ungranted t q + (if q = [] then 0 else if r.txn_ = t then 1 else 0) := by
  cases q with
  | nil => simp [ungranted]
  | cons a rest =>
    by_cases h : r.txn_ = t <;> simp [ungranted, List.countP_append, List.countP_cons, h]

/-! ### The cases of `LockManagerA::Release` -/

namespace LockManagerA

/-- `Release` of a transaction without a request in the queue changes nothing. -/
theorem Release_absent (s : LockManagerA) (txn : Txn) (key : Key)
    (hq : ∀ x ∈ s.lock_table_ key, x.txn_ ≠ txn) : s.Release txn key = s := by
  have hs : setAt s.lock_table_ key (s.lock_table_ key) = s.lock_table_ := setAt_self _ _
  unfold Release
  rw [releaseLoop_absent txn _ true hq]
  simp only [hs]
  cases h : s.lock_table_ key with
  | nil => rfl
  | cons a rest => simp

/-- `Release` of the only request of a queue empties the queue and does nothing else. -/
theorem Release_head_last (s : LockManagerA) (txn : Txn) (key : Key) (r : LockRequest)
    (hq : s.lock_table_ key = [r]) (hr : r.txn_ = txn) :
    s.Release txn key = { s with lock_table_ := setAt s.lock_table_ key [] } := by
  have hl := releaseLoop_split txn [] r [] true hr (by simp)
  simp only [List.nil_append, if_true] at hl
  unfold Release
  rw [hq, hl]

/-- `Release` of the head of a queue with a second request `next`. -/
theorem Release_head_next (s : LockManagerA) (txn : Txn) (key : Key) (r next : LockRequest)
    (rest : List LockRequest) (hq : s.lock_table_ key = r :: next :: rest) (hr : r.txn_ = txn) :
    s.Release txn key =
      if (s.txn_waits_ next.txn_).getD 0 - 1 = 0 then
        { lock_table_ := setAt s.lock_table_ key (next :: rest),
          txn_waits_ := setAt s.txn_waits_ next.txn_ none,
          ready_txns_ := s.ready_txns_ ++ [next.txn_] }
      else
        { lock_table_ := setAt s.lock_table_ key (next :: rest),
          txn_waits_ := setAt s.txn_waits_ next.txn_ (some ((s.txn_waits_ next.txn_).getD 0 - 1)),
          ready_txns_ := s.ready_txns_ } := by
  have hl := releaseLoop_split txn [] r (next :: rest) true hr (by simp)
  simp only [List.nil_append, if_true] at hl
  unfold Release
  rw [hq, hl]
  rfl

/-- `Release` of a request behind the head only takes that request out. -/
theorem Release_queued (s : LockManagerA) (txn : Txn) (key : Key) (a r : LockRequest)
    (l1 l2 : List LockRequest) (hq : s.lock_table_ key = a :: (l1 ++ r :: l2))
    (ha : a.txn_ ≠ txn) (hl1 : ∀ x ∈ l1, x.txn_ ≠ txn) (hr : r.txn_ = txn) :
    s.Release txn key = { s with lock_table_ := setAt s.lock_table_ key (a :: (l1 ++ l2)) } := by
  unfold Release
  have hl : ∀ x ∈ a :: l1, x.txn_ ≠ txn := by
    intro x hx
    rcases List.mem_cons.mp hx with h | h
    · exact h ▸ ha
    · exact hl1 x h
  have := releaseLoop_split txn (a :: l1) r l2 true hr hl
  rw [List.cons_append] at this
  rw [hq, this]
  rfl

end LockManagerA

/-! ### The wait counts of `LockManagerA` along a sequence of calls -/

/-- `WriteLock` keeps the wait counts exact. -/
theorem WaitInv_WriteLock (s : LockManagerA) (e : Txn → Nat) (txn : Txn) (key : Key)
    (h : WaitInv s e) : WaitInv (s.WriteLock txn key).2 e := by
  intro ks hc t
  have htbl : (s.WriteLock txn key).2.lock_table_
      = setAt s.lock_table_ key (s.lock_table_ key ++ [⟨EXCLUSIVE, txn⟩]) := by
    cases hq : s.lock_table_ key <;> simp [LockManagerA.WriteLock, hq]
  rw [htbl] at hc ⊢
  obtain ⟨ks1, hc1, hp⟩ := pending_step _ _ _ _ hc
  have hpt := hp t
  have ih := h ks1 hc1
  rw [ungranted_append_one] at hpt
  cases hq : s.lock_table_ key with
  | nil =>
    have hw : (s.WriteLock txn key).2.txn_waits_ = s.txn_waits_ := by
      simp [LockManagerA.WriteLock, hq]
    rw [hw, ih t]
    simp only [hq, if_true] at hpt
    congr 1
    omega
  | cons a rest =>
    have hw : (s.WriteLock txn key).2.txn_waits_
        = setAt s.txn_waits_ txn (some ((s.txn_waits_ txn).getD 0 + 1)) := by
      simp [LockManagerA.WriteLock, hq]
    rw [hw]
    simp only [hq, if_false, List.cons_ne_nil] at hpt
    by_cases ht : t = txn
    · subst ht
      rw [setAt_same, ih t, waitEntry_getD]
      simp only [if_true] at hpt
      have : pending (setAt s.lock_table_ key (a :: rest ++ [⟨EXCLUSIVE, t⟩])) ks t + e t
          = (pending s.lock_table_ ks1 t + e t) + 1 := by omega
      rw [this, waitEntry_succ]
    · rw [setAt_ne _ _ ht, ih t]
      have h2 : ¬ txn = t := fun h => ht h.symm
      simp only [h2, if_false] at hpt
      congr 1
      omega


/-- No request of `txn` in the queue: nothing is removed from behind the head. -/
theorem releasesQueued_absent (s : LockManagerA) (txn : Txn) (key : Key)
    (hq : ∀ x ∈ s.lock_table_ key, x.txn_ ≠ txn) : releasesQueued s txn key = false := by
  unfold releasesQueued
  cases h : s.lock_table_ key with
  | nil => rfl
  | cons a rest =>
    have : rest.any (fun r => r.txn_ == txn) = false := by
      rw [List.any_eq_false]
      intro x hx
      have := hq x (by rw [h]; exact List.mem_cons_of_mem _ hx)
      simpa using this
    simp [this]

/-- The head belongs to `txn`: the request removed is the head. -/
theorem releasesQueued_head (s : LockManagerA) (txn : Txn) (key : Key) (r : LockRequest)
    (rest : List LockRequest) (hq : s.lock_table_ key = r :: rest) (hr : r.txn_ = txn) :
    releasesQueued s txn key = false := by
  simp [releasesQueued, hq, hr]

/-- The first request of `txn` is behind the head. -/
theorem releasesQueued_queued (s : LockManagerA) (txn : Txn) (key : Key) (a r : LockRequest)
    (l1 l2 : List LockRequest) (hq : s.lock_table_ key = a :: (l1 ++ r :: l2))
    (ha : a.txn_ ≠ txn) (hr : r.txn_ = txn) :
    releasesQueued s txn key = true := by
  simp [releasesQueued, hq, ha, hr]

/-- `Release` keeps the wait counts exact once the requests it removes from behind the head
are added to `e`. -/
theorem WaitInv_Release (s : LockManagerA) (e : Txn → Nat) (txn : Txn) (key : Key)
    (h : WaitInv s e) :
    WaitInv (s.Release txn key)
      (fun t => e t + if txn = t ∧ releasesQueued s txn key = true then 1 else 0) := by
  intro ks hc t
  show (s.Release txn key).txn_waits_ t
    = waitEntry (pending (s.Release txn key).lock_table_ ks t
        + (e t + if txn = t ∧ releasesQueued s txn key = true then 1 else 0))
  by_cases hex : ∃ r ∈ s.lock_table_ key, r.txn_ = txn
  · obtain ⟨l1, r, l2, hq, hr, hl1⟩ := exists_first_owned txn _ hex
    cases l1 with
    | nil =>
      rw [List.nil_append] at hq
      have hrq := releasesQueued_head s txn key r l2 hq hr
      simp only [hrq, Bool.false_eq_true, and_false, if_false, Nat.add_zero]
      cases l2 with
      | nil =>
        rw [LockManagerA.Release_head_last s txn key r hq hr] at hc ⊢
        obtain ⟨ks1, hc1, hp⟩ := pending_step _ _ _ _ hc
        have hpt := hp t
        rw [hq] at hpt
        simp only [ungranted, List.tail_cons, List.countP_nil, List.tail_nil] at hpt
        show s.txn_waits_ t = waitEntry (pending (setAt s.lock_table_ key []) ks t + e t)
        rw [h ks1 hc1 t]
        congr 1
        omega
      | cons next rest =>
        have hl : (s.Release txn key).lock_table_ = setAt s.lock_table_ key (next :: rest) := by
          rw [LockManagerA.Release_head_next s txn key r next rest hq hr]
          split <;> rfl
        rw [hl] at hc ⊢
        obtain ⟨ks1, hc1, hp⟩ := pending_step _ _ _ _ hc
        have hpt := hp t
        have hpn := hp next.txn_
        rw [hq] at hpt hpn
        simp only [ungranted, List.tail_cons, List.countP_cons, beq_self_eq_true, if_true]
          at hpt hpn
        have ihn := h ks1 hc1 next.txn_
        have iht := h ks1 hc1 t
        have hg : (s.txn_waits_ next.txn_).getD 0 - 1
            = ((pending (setAt s.lock_table_ key (next :: rest)) ks next.txn_
                + e next.txn_ : Nat) : Int) := by
          rw [ihn, waitEntry_getD]
          have : pending s.lock_table_ ks1 next.txn_
              = pending (setAt s.lock_table_ key (next :: rest)) ks next.txn_ + 1 := by omega
          rw [this]
          push_cast
          ring
        rw [LockManagerA.Release_head_next s txn key r next rest hq hr]
        by_cases ht : t = next.txn_
        · subst ht
          by_cases hz : (s.txn_waits_ next.txn_).getD 0 - 1 = 0
          · rw [if_pos hz]
            show setAt s.txn_waits_ next.txn_ none next.txn_ = _
            rw [setAt_same]
            rw [hz] at hg
            have : pending (setAt s.lock_table_ key (next :: rest)) ks next.txn_
                + e next.txn_ = 0 := by
              exact_mod_cast hg.symm
            rw [this]
            rfl
          · rw [if_neg hz]
            show setAt s.txn_waits_ next.txn_ _ next.txn_ = _
            rw [setAt_same, hg]
            have hnz : pending (setAt s.lock_table_ key (next :: rest)) ks next.txn_
                + e next.txn_ ≠ 0 := by
              intro h0
              apply hz
              rw [hg, h0]
              rfl
            simp [waitEntry, hnz]
        · have hne : (next.txn_ == t) = false := by
            simpa using fun h => ht h.symm
          simp only [hne, Bool.false_eq_true, if_false] at hpt
          have hw : (if (s.txn_waits_ next.txn_).getD 0 - 1 = 0 then
                ({ lock_table_ := setAt s.lock_table_ key (next :: rest),
                   txn_waits_ := setAt s.txn_waits_ next.txn_ none,
                   ready_txns_ := s.ready_txns_ ++ [next.txn_] } : LockManagerA)
              else
                { lock_table_ := setAt s.lock_table_ key (next :: rest),
                  txn_waits_ := setAt s.txn_waits_ next.txn_
                    (some ((s.txn_waits_ next.txn_).getD 0 - 1)),
                  ready_txns_ := s.ready_txns_ }).txn_waits_ t = s.txn_waits_ t := by
            split <;> exact setAt_ne _ _ ht
          rw [hw, iht]
          congr 1
          omega
    | cons a l1 =>
      rw [List.cons_append] at hq
      have ha : a.txn_ ≠ txn := hl1 a (List.mem_cons_self _ _)
      have hl1' : ∀ x ∈ l1, x.txn_ ≠ txn := fun x hx => hl1 x (List.mem_cons_of_mem _ hx)
      have hrq := releasesQueued_queued s txn key a r l1 l2 hq ha hr
      rw [LockManagerA.Release_queued s txn key a r l1 l2 hq ha hl1' hr] at hc ⊢
      obtain ⟨ks1, hc1, hp⟩ := pending_step _ _ _ _ hc
      have hpt := hp t
      rw [hq] at hpt
      simp only [ungranted, List.tail_cons, List.countP_append, List.countP_cons] at hpt
      show s.txn_waits_ t = waitEntry (pending (setAt s.lock_table_ key (a :: (l1 ++ l2))) ks t + _)
      rw [h ks1 hc1 t]
      simp only [hrq, and_true]
      by_cases ht : txn = t
      · have : (r.txn_ == t) = true := by simp [hr, ht]
        simp only [this, if_true] at hpt
        simp only [ht, if_true]
        congr 1
        omega
      · have : (r.txn_ == t) = false := by simp [hr, ht]
        simp only [this, Bool.false_eq_true, if_false] at hpt
        simp only [ht, if_false]
        congr 1
        omega
  · have hq : ∀ x ∈ s.lock_table_ key, x.txn_ ≠ txn := by
      intro x hx hxt
      exact hex ⟨x, hx, hxt⟩
    rw [LockManagerA.Release_absent s txn key hq] at hc ⊢
    simp only [releasesQueued_absent s txn key hq, Bool.false_eq_true, and_false, if_false,
      Nat.add_zero]
    exact h ks hc t

/-- Nothing is pending in an empty lock table. -/
theorem pending_nil (ks : List Key) (t : Txn) : pending (fun _ => []) ks t = 0 := by
  induction ks with
  | nil => rfl
  | cons a rest ih =>
    simp only [pending, List.map_cons, List.sum_cons] at ih ⊢
    rw [ih]
    rfl

/-- The wait counts of a fresh manager are exact. -/
theorem WaitInv_new (ready_txns : List Txn) :
    WaitInv (LockManagerA.new ready_txns) (fun _ => 0) := by
  intro ks _ t
  show none = waitEntry (pending (fun _ => []) ks t + 0)
  rw [pending_nil]
  rfl

/-- A sequence of calls keeps the wait counts exact up to its early releases. -/
theorem WaitInv_run (cs : List Call) (s : LockManagerA) (e : Txn → Nat) (h : WaitInv s e) :
    WaitInv (s.run cs) (fun t => e t + earlyReleases s cs t) := by
  induction cs generalizing s e with
  | nil => simpa [LockManagerA.run, earlyReleases] using h
  | cons c rest ih =>
    cases c with
    | WriteLock txn key =>
      have := ih _ e (WaitInv_WriteLock s e txn key h)
      simpa [LockManagerA.run, LockManagerA.step, earlyReleases] using this
    | ReadLock txn key =>
      have := ih _ e (WaitInv_WriteLock s e txn key h)
      simpa [LockManagerA.run, LockManagerA.step, earlyReleases, LockManagerA.ReadLock] using this
    | Release txn key =>
      have := ih _ _ (WaitInv_Release s e txn key h)
      simpa [LockManagerA.run, LockManagerA.step, earlyReleases, Nat.add_assoc] using this


/-- A cover can be extended to contain a given key. -/
theorem covers_insert (tbl : Key → List LockRequest) (ks : List Key) (k : Key)
    (h : Covers tbl ks) : ∃ ks1, Covers tbl ks1 ∧ k ∈ ks1 := by
  by_cases hk : k ∈ ks
  · exact ⟨ks, h, hk⟩
  · exact ⟨k :: ks, ⟨List.nodup_cons.mpr ⟨hk, h.1⟩,
      fun k1 h1 => List.mem_cons_of_mem _ (h.2 k1 h1)⟩, List.mem_cons_self _ _⟩

/-- A lock table with a cover still has one after one queue is rewritten. -/
theorem covers_setAt (tbl : Key → List LockRequest) (ks : List Key) (k : Key)
    (q : List LockRequest) (h : Covers tbl ks) : ∃ ks1, Covers (setAt tbl k q) ks1 := by
  obtain ⟨ks1, h1, hk⟩ := covers_insert tbl ks k h
  refine ⟨ks1, h1.1, ?_⟩
  intro k1 hk1
  by_cases e : k1 = k
  · exact e ▸ hk
  · exact h1.2 k1 (by rwa [setAt_ne _ _ e] at hk1)

/-- One call keeps the lock table finite. -/
theorem covers_step (s : LockManagerA) (c : Call) (h : ∃ ks, Covers s.lock_table_ ks) :
    ∃ ks, Covers (s.step c).lock_table_ ks := by
  obtain ⟨ks, hks⟩ := h
  have hw : ∀ txn key, (s.WriteLock txn key).2.lock_table_
      = setAt s.lock_table_ key (s.lock_table_ key ++ [⟨EXCLUSIVE, txn⟩]) := by
    intro txn key
    cases hq : s.lock_table_ key <;> simp [LockManagerA.WriteLock, hq]
  cases c with
  | WriteLock txn key =>
    show ∃ ks, Covers (s.WriteLock txn key).2.lock_table_ ks
    rw [hw]
    exact covers_setAt _ ks _ _ hks
  | ReadLock txn key =>
    show ∃ ks, Covers (s.WriteLock txn key).2.lock_table_ ks
    rw [hw]
    exact covers_setAt _ ks _ _ hks
  | Release txn key =>
    show ∃ ks, Covers (s.Release txn key).lock_table_ ks
    rw [LockManagerA.Release_queues]
    exact covers_setAt _ ks _ _ hks

/-- A sequence of calls keeps the lock table finite. -/
theorem covers_run (cs : List Call) (s : LockManagerA) (h : ∃ ks, Covers s.lock_table_ ks) :
    ∃ ks, Covers (s.run cs).lock_table_ ks := by
  induction cs generalizing s with
  | nil => exact h
  | cons c rest ih => exact ih _ (covers_step s c h)

/-- The empty list covers the lock table of a fresh manager. -/
theorem covers_new (ready_txns : List Txn) :
    ∃ ks, Covers (LockManagerA.new ready_txns).lock_table_ ks :=
  ⟨[], List.nodup_nil, fun _ h => absurd rfl h⟩

/-- A zero count over `ks` is zero at every key of `ks`. -/
theorem ungranted_of_pending_zero (tbl : Key → List LockRequest) (ks : List Key) (t : Txn)
    (k : Key) (hk : k ∈ ks) (h : pending tbl ks t = 0) : ungranted t (tbl k) = 0 := by
  induction ks with
  | nil => simp at hk
  | cons a rest ih =>
    simp only [pending, List.map_cons, List.sum_cons] at h ih
    rcases List.mem_cons.mp hk with e | e
    · subst e
      omega
    · exact ih e (by omega)

/-- Only the count zero has no entry. -/
theorem waitEntry_eq_none (n : Nat) (h : waitEntry n = none) : n = 0 := by
  unfold waitEntry at h
  by_contra hn
  simp [hn] at h

/-- `LockManagerA::Release` leaves the ready deque alone or appends one
transaction, whose entry in `txn_waits_` it erases. -/
theorem LockManagerA.Release_ready (s : LockManagerA) (txn : Txn) (key : Key) :
    (s.Release txn key).ready_txns_ = s.ready_txns_
      ∨ ∃ T, (s.Release txn key).ready_txns_ = s.ready_txns_ ++ [T]
          ∧ (s.Release txn key).txn_waits_ T = none := by
  by_cases hex : ∃ r ∈ s.lock_table_ key, r.txn_ = txn
  · obtain ⟨l1, r, l2, hq, hr, hl1⟩ := exists_first_owned txn _ hex
    cases l1 with
    | nil =>
      rw [List.nil_append] at hq
      cases l2 with
      | nil =>
        rw [LockManagerA.Release_head_last s txn key r hq hr]
        exact Or.inl rfl
      | cons next rest =>
        rw [LockManagerA.Release_head_next s txn key r next rest hq hr]
        by_cases hz : (s.txn_waits_ next.txn_).getD 0 - 1 = 0
        · rw [if_pos hz]
          exact Or.inr ⟨next.txn_, rfl, setAt_same _ _ _⟩
        · rw [if_neg hz]
          exact Or.inl rfl
    | cons a l1 =>
      rw [List.cons_append] at hq
      have ha : a.txn_ ≠ txn := hl1 a (List.mem_cons_self _ _)
      have hl1' : ∀ x ∈ l1, x.txn_ ≠ txn := fun x hx => hl1 x (List.mem_cons_of_mem _ hx)
      rw [LockManagerA.Release_queued s txn key a r l1 l2 hq ha hl1' hr]
      exact Or.inl rfl
  · have hq : ∀ x ∈ s.lock_table_ key, x.txn_ ≠ txn := by
      intro x hx hxt
      exact hex ⟨x, hx, hxt⟩
    rw [LockManagerA.Release_absent s txn key hq]
    exact Or.inl rfl

/-! ### `LockManagerB`: the fields after `_addLock` and `Release` -/

namespace LockManagerB

/-- The queues after `_addLock`: the request is appended to the queue of `key`. -/
theorem addLock_lock_table (s : LockManagerB) (m : LockMode) (txn : Txn) (key : Key) :
    (s._addLock m txn key).2.lock_table_
      = setAt s.lock_table_ key (s.lock_table_ key ++ [⟨m, txn⟩]) := by
  unfold _addLock
  dsimp only
  split <;> split <;> rfl

/-- `_addLock` never touches the ready deque. -/
theorem addLock_ready_txns (s : LockManagerB) (m : LockMode) (txn : Txn) (key : Key) :
    (s._addLock m txn key).2.ready_txns_ = s.ready_txns_ := by
  unfold _addLock
  dsimp only
  split <;> split <;> rfl

/-- The counters after `_addLock`: only a request that is not `SHARED` moves the counter
of `key`. -/
theorem addLock_numExclusiveWaiting (s : LockManagerB) (m : LockMode) (txn : Txn) (key : Key) :
    (s._addLock m txn key).2._numExclusiveWaiting
      = if m = SHARED then s._numExclusiveWaiting
        else setAt s._numExclusiveWaiting key (s._numExclusiveWaiting key + 1) := by
  unfold _addLock
  dsimp only
  split <;> split <;> rfl

/-- The wait counts after `_addLock`: untouched when it grants, one more for `txn` when
it does not. -/
theorem addLock_txn_waits (s : LockManagerB) (m : LockMode) (txn : Txn) (key : Key) :
    (s._addLock m txn key).2.txn_waits_
      = if (s._addLock m txn key).1 = true then s.txn_waits_
        else setAt s.txn_waits_ txn (some ((s.txn_waits_ txn).getD 0 + 1)) := by
  unfold _addLock
  dsimp only
  by_cases hm : m = SHARED
  · by_cases hg : (s.Status key none).1 = UNLOCKED <;>
      by_cases hn : s._numExclusiveWaiting key = 0 <;>
      simp [hm, hg, hn, _noExclusiveWaiting]
  · by_cases hg : (s.Status key none).1 = UNLOCKED <;> simp [hm, hg]

/-- The queues after `LockManagerB::Release`: only the queue of `key` is rewritten, with
the first request of `txn` erased. -/
theorem Release_lock_table (slot : ErasedSlot) (s : LockManagerB) (txn : Txn) (key : Key) :
    (Release slot s txn key).lock_table_
      = setAt s.lock_table_ key (erased txn (s.lock_table_ key)) := by
  obtain ⟨n, e⟩ := Release_unfold slot s txn key
  rw [e]
  simp only [wakeOwners_lock_table, erased]

/-- The wake-up loop keeps every entry at least one: an entry that reaches zero is
erased. -/
theorem wakeOwners_positive (os : List Txn) (s : LockManagerB)
    (h : PositiveWaits s.txn_waits_) : PositiveWaits (wakeOwners os s).txn_waits_ := by
  induction os generalizing s with
  | nil => exact h
  | cons o rest ih =>
    rw [wakeOwners]
    cases hw : s.txn_waits_ o with
    | none => exact ih s h
    | some c =>
      have hc := h o c hw
      by_cases hz : c - 1 = 0
      · simp only [hz, if_true]
        apply ih
        intro t v ht
        by_cases e : t = o
        · subst e
          simp at ht
        · have ht2 : setAt s.txn_waits_ o none t = some v := ht
          rw [setAt_ne _ _ e] at ht2
          exact h t v ht2
      · simp only [hz, if_false]
        apply ih
        intro t v ht
        by_cases e : t = o
        · subst e
          simp at ht
          omega
        · have ht2 : setAt s.txn_waits_ o (some (c - 1)) t = some v := ht
          rw [setAt_ne _ _ e] at ht2
          exact h t v ht2

/-- `LockManagerB::Release` keeps every entry at least one. -/
theorem Release_positive (slot : ErasedSlot) (s : LockManagerB) (txn : Txn) (key : Key)
    (h : PositiveWaits s.txn_waits_) : PositiveWaits (Release slot s txn key).txn_waits_ := by
  obtain ⟨n, e⟩ := Release_unfold slot s txn key
  rw [e]
  exact wakeOwners_positive _ _ h

/-- `_addLock` keeps every entry at least one. -/
theorem addLock_positive (s : LockManagerB) (m : LockMode) (txn : Txn) (key : Key)
    (h : PositiveWaits s.txn_waits_) : PositiveWaits (s._addLock m txn key).2.txn_waits_ := by
  rw [addLock_txn_waits]
  split
  · exact h
  · intro t v ht
    by_cases e : t = txn
    · subst e
      simp at ht
      cases hw : s.txn_waits_ t with
      | none => simp [hw] at ht; omega
      | some c =>
        have := h t c hw
        simp [hw] at ht
        omega
    · rw [setAt_ne _ _ e] at ht
      exact h t v ht

/-- A sequence of calls on a `LockManagerB` keeps every entry at least one. -/
theorem run_positive (slot : ErasedSlot) (cs : List Call) (s : LockManagerB)
    (h : PositiveWaits s.txn_waits_) : PositiveWaits (run slot s cs).txn_waits_ := by
  induction cs generalizing s with
  | nil => exact h
  | cons c rest ih =>
    apply ih
    cases c with
    | WriteLock txn key => exact addLock_positive s EXCLUSIVE txn key h
    | ReadLock txn key => exact addLock_positive s SHARED txn key h
    | Release txn key => exact Release_positive slot s txn key h

end LockManagerB

/-! ### What `Status` of `LockManagerB` tells about the queue -/

/-- `Status` reports `EXCLUSIVE` only for a queue whose head is exclusive, with that
head as the one owner. -/
theorem LockManagerB.Status_exclusive_inv (s : LockManagerB) (key : Key) (o owners : List Txn)
    (hwf : ∀ x ∈ s.lock_table_ key, x.mode_ ≠ UNLOCKED)
    (h : s.Status key (some o) = (EXCLUSIVE, some owners)) :
    ∃ head rest, s.lock_table_ key = head :: rest ∧ head.mode_ = EXCLUSIVE
      ∧ owners = [head.txn_] := by
  cases hq : s.lock_table_ key with
  | nil =>
    rw [LockManagerB.Status_of_nil s key _ hq] at h
    simp at h
  | cons head rest =>
    cases hm : head.mode_ with
    | UNLOCKED => exact absurd hm (hwf head (by rw [hq]; exact List.mem_cons_self _ _))
    | SHARED =>
      rw [LockManagerB.Status_shared_head s key head rest o hq hm hwf] at h
      simp at h
    | EXCLUSIVE =>
      rw [LockManagerB.Status_exclusive_head s key head rest o hq hm] at h
      simp at h
      exact ⟨head, rest, rfl, hm, h.symm⟩

/-- `Status` reports `SHARED` only for a queue whose head is shared, with the leading
shared requests as owners. -/
theorem LockManagerB.Status_shared_inv (s : LockManagerB) (key : Key) (o owners : List Txn)
    (hwf : ∀ x ∈ s.lock_table_ key, x.mode_ ≠ UNLOCKED)
    (h : s.Status key (some o) = (SHARED, some owners)) :
    owners = ((s.lock_table_ key).takeWhile (fun r => decide (r.mode_ = SHARED))).map (·.txn_)
      ∧ ∃ head rest, s.lock_table_ key = head :: rest ∧ head.mode_ = SHARED := by
  cases hq : s.lock_table_ key with
  | nil =>
    rw [LockManagerB.Status_of_nil s key _ hq] at h
    simp at h
  | cons head rest =>
    cases hm : head.mode_ with
    | UNLOCKED => exact absurd hm (hwf head (by rw [hq]; exact List.mem_cons_self _ _))
    | SHARED =>
      rw [LockManagerB.Status_shared_head s key head rest o hq hm hwf] at h
      simp only [Prod.mk.injEq, Option.some.injEq, true_and] at h
      rw [hq] at h
      exact ⟨h.symm, head, rest, rfl, hm⟩
    | EXCLUSIVE =>
      rw [LockManagerB.Status_exclusive_head s key head rest o hq hm] at h
      simp at h

/-- An entry that stands for a count is at least one. -/
theorem waitEntry_positive (n : Nat) : PositiveWaits (fun _ : Txn => waitEntry n) := by
  intro t v h
  unfold waitEntry at h
  by_cases hn : n = 0
  · simp [hn] at h
  · simp [hn] at h
    omega

/-! ### The counter of exclusive requests -/

namespace LockManagerB

/-- The index found by the scan of `Release` is inside the queue. -/
theorem firstOwned_lt (txn : Txn) (q : List LockRequest) (i : Nat)
    (h : firstOwned txn q = some i) : i < q.length := by
  induction q generalizing i with
  | nil => simp [firstOwned] at h
  | cons a rest ih =>
    rw [firstOwned] at h
    by_cases ha : a.txn_ = txn
    · simp [ha] at h
      subst h
      simp
    · simp only [ha, if_false, Option.map_eq_some'] at h
      obtain ⟨j, hj, hji⟩ := h
      have := ih j hj
      simp
      omega

/-- The counters after `LockManagerB::Release`: the counter of `key` goes down by one
exactly when a request was erased and the read of line 149 gave `EXCLUSIVE`. -/
theorem Release_numExclusiveWaiting (slot : ErasedSlot) (s : LockManagerB) (txn : Txn)
    (key : Key) :
    (Release slot s txn key)._numExclusiveWaiting
      = match firstOwned txn (s.lock_table_ key) with
        | some i =>
          if slot (s.lock_table_ key) i = EXCLUSIVE then
            setAt s._numExclusiveWaiting key (s._numExclusiveWaiting key - 1)
          else s._numExclusiveWaiting
        | none => s._numExclusiveWaiting := by
  unfold Release
  simp only [wakeOwners_numExclusiveWaiting]
  cases firstOwned txn (s.lock_table_ key) with
  | none => rfl
  | some i =>
    dsimp only
    split <;> rfl

end LockManagerB

/-- Erasing a request lowers the number of exclusive requests by one exactly when the
request is exclusive. -/
theorem exclusiveCount_eraseIdx (q : List LockRequest) (i : Nat) (r : LockRequest)
    (h : q.get? i = some r) :
    exclusiveCount (q.eraseIdx i) + (if r.mode_ = EXCLUSIVE then 1 else 0)
      = exclusiveCount q := by
  induction q generalizing i with
  | nil => simp at h
  | cons a rest ih =>
    cases i with
    | zero =>
      simp at h
      subst h
      by_cases ha : a.mode_ = EXCLUSIVE <;> simp [exclusiveCount, List.countP_cons, ha]
    | succ j =>
      rw [List.get?_cons_succ] at h
      have := ih j h
      simp only [exclusiveCount, List.eraseIdx_cons_succ, List.countP_cons] at this ⊢
      omega

/-- Appending a request raises the number of exclusive requests by one exactly when
the request is exclusive. -/
theorem exclusiveCount_append_one (q : List LockRequest) (r : LockRequest) :
    exclusiveCount (q ++ [r]) = exclusiveCount q + (if r.mode_ = EXCLUSIVE then 1 else 0) := by
  by_cases h : r.mode_ = EXCLUSIVE <;> simp [exclusiveCount, List.countP_append, h]

/-- `ReadLock` and `WriteLock` keep the counters exact. -/
theorem CounterInv_addLock (s : LockManagerB) (m : LockMode) (txn : Txn) (key : Key)
    (hm : m ≠ UNLOCKED) (h : CounterInv s) : CounterInv (s._addLock m txn key).2 := by
  intro k
  rw [LockManagerB.addLock_lock_table, LockManagerB.addLock_numExclusiveWaiting]
  by_cases hk : k = key
  · subst hk
    rw [setAt_same, exclusiveCount_append_one]
    cases m with
    | UNLOCKED => exact absurd rfl hm
    | SHARED => simp [h k]
    | EXCLUSIVE => simp [h k]
  · rw [setAt_ne _ _ hk]
    split
    · exact h k
    · rw [setAt_ne _ _ hk]
      exact h k

/-- `Release` keeps the counters exact when the read of line 149 returns the mode of
the erased request. -/
theorem CounterInv_Release (s : LockManagerB) (txn : Txn) (key : Key) (h : CounterInv s) :
    CounterInv (LockManagerB.Release slotOfErased s txn key) := by
  intro k
  rw [LockManagerB.Release_lock_table, LockManagerB.Release_numExclusiveWaiting]
  unfold LockManagerB.erased
  cases hf : LockManagerB.firstOwned txn (s.lock_table_ key) with
  | none =>
    dsimp only
    rw [setAt_self]
    exact h k
  | some i =>
    dsimp only
    have hlt := LockManagerB.firstOwned_lt txn _ i hf
    obtain ⟨r, hr⟩ : ∃ r, (s.lock_table_ key).get? i = some r :=
      ⟨_, List.get?_eq_get hlt⟩
    have hc := exclusiveCount_eraseIdx _ i r hr
    have hs : slotOfErased (s.lock_table_ key) i = r.mode_ := by
      unfold slotOfErased
      rw [hr]
    rw [hs]
    by_cases hk : k = key
    · subst hk
      rw [setAt_same]
      by_cases hm : r.mode_ = EXCLUSIVE
      · simp only [hm, if_true] at hc ⊢
        rw [setAt_same, h k]
        omega
      · simp only [hm, if_false] at hc ⊢
        rw [h k]
        omega
    · rw [setAt_ne _ _ hk]
      split
      · rw [setAt_ne _ _ hk]
        exact h k
      · exact h k

/-- With the read of line 149 returning the mode of the erased request, a sequence of
calls keeps the counters exact. -/
theorem CounterInv_run (cs : List Call) (s : LockManagerB) (h : CounterInv s) :
    CounterInv (LockManagerB.run slotOfErased s cs) := by
  induction cs generalizing s with
  | nil => exact h
  | cons c rest ih =>
    apply ih
    cases c with
    | WriteLock txn key => exact CounterInv_addLock s EXCLUSIVE txn key (by decide) h
    | ReadLock txn key => exact CounterInv_addLock s SHARED txn key (by decide) h
    | Release txn key => exact CounterInv_Release s txn key h

/-- A queue without exclusive requests counts zero. -/
theorem exclusiveCount_eq_zero (q : List LockRequest) (hq : ∀ r ∈ q, r.mode_ ≠ EXCLUSIVE) :
    exclusiveCount q = 0 := by
  unfold exclusiveCount
  rw [List.countP_eq_zero]
  intro r hr
  simpa using hq r hr

/-- A queue with an exclusive request counts at least one. -/
theorem exclusiveCount_pos (q : List LockRequest) (h : ∃ r ∈ q, r.mode_ = EXCLUSIVE) :
    0 < exclusiveCount q := by
  unfold exclusiveCount
  rw [List.countP_pos_iff]
  obtain ⟨r, hr, hm⟩ := h
  exact ⟨r, hr, by simpa using hm⟩

/-! ### Requests stored in the queues of `LockManagerB` -/

namespace LockManagerB

/-- The erase of `Release` adds no request. -/
theorem erased_subset (txn : Txn) (q : List LockRequest) : ∀ r ∈ erased txn q, r ∈ q := by
  intro r hr
  unfold erased at hr
  cases hf : firstOwned txn q with
  | none => simpa [hf] using hr
  | some i =>
    rw [hf] at hr
    exact (List.eraseIdx_sublist q i).subset hr

/-- One call stores no `UNLOCKED` request. -/
theorem NoUnlocked_step (slot : ErasedSlot) (s : LockManagerB) (c : Call)
    (h : NoUnlocked s.lock_table_) : NoUnlocked (step slot s c).lock_table_ := by
  have hadd : ∀ m txn key, m ≠ UNLOCKED → NoUnlocked (s._addLock m txn key).2.lock_table_ := by
    intro m txn key hm k r hr
    rw [addLock_lock_table] at hr
    by_cases hk : k = key
    · subst hk
      rw [setAt_same] at hr
      rcases List.mem_append.mp hr with h1 | h1
      · exact h k r h1
      · simp at h1
        subst h1
        exact hm
    · rw [setAt_ne _ _ hk] at hr
      exact h k r hr
  cases c with
  | WriteLock txn key => exact hadd EXCLUSIVE txn key (by decide)
  | ReadLock txn key => exact hadd SHARED txn key (by decide)
  | Release txn key =>
    intro k r hr
    have hr2 : r ∈ (Release slot s txn key).lock_table_ k := hr
    rw [Release_lock_table] at hr2
    by_cases hk : k = key
    · subst hk
      rw [setAt_same] at hr2
      exact h k r (erased_subset txn _ r hr2)
    · rw [setAt_ne _ _ hk] at hr2
      exact h k r hr2

/-- A sequence of calls stores no `UNLOCKED` request. -/
theorem NoUnlocked_run (slot : ErasedSlot) (cs : List Call) (s : LockManagerB)
    (h : NoUnlocked s.lock_table_) : NoUnlocked (run slot s cs).lock_table_ := by
  induction cs generalizing s with
  | nil => exact h
  | cons c rest ih => exact ih _ (NoUnlocked_step slot s c h)

/-- `Release` of the only request of a queue empties the queue and changes
neither `txn_waits_` nor the ready deque, whatever the read of line 149
returns. -/
theorem Release_sole (slot : ErasedSlot) (s : LockManagerB) (txn : Txn) (key : Key)
    (r : LockRequest) (hq : s.lock_table_ key = [r]) (hr : r.txn_ = txn) :
    (Release slot s txn key).lock_table_ key = []
      ∧ (Release slot s txn key).txn_waits_ = s.txn_waits_
      ∧ (Release slot s txn key).ready_txns_ = s.ready_txns_ := by
  obtain ⟨n, e⟩ := Release_unfold slot s txn key
  rw [e]
  simp [hq, firstOwned, hr, Status, wakeOwners]

end LockManagerB

/-! ### One key, exclusive requests in arrival order (`LockManagerA`) -/

/-- Running two sequences of calls one after the other. -/
theorem LockManagerA.run_append (s : LockManagerA) (cs1 cs2 : List Call) :
    s.run (cs1 ++ cs2) = (s.run cs1).run cs2 := by
  induction cs1 generalizing s with
  | nil => rfl
  | cons c rest ih => exact ih _

/-- `WriteLock` grants exactly on an empty queue. -/
theorem LockManagerA.WriteLock_fst (s : LockManagerA) (txn : Txn) (key : Key) :
    (s.WriteLock txn key).1 = (s.lock_table_ key).isEmpty := by
  unfold LockManagerA.WriteLock
  dsimp only
  split <;> rfl

/-- The queues after `LockManagerA::WriteLock`. -/
theorem LockManagerA.WriteLock_lock_table (s : LockManagerA) (txn : Txn) (key : Key) :
    (s.WriteLock txn key).2.lock_table_
      = setAt s.lock_table_ key (s.lock_table_ key ++ [⟨EXCLUSIVE, txn⟩]) := by
  cases hq : s.lock_table_ key <;> simp [LockManagerA.WriteLock, hq]

/-- The wait counts after `LockManagerA::WriteLock`. -/
theorem LockManagerA.WriteLock_txn_waits (s : LockManagerA) (txn : Txn) (key : Key) :
    (s.WriteLock txn key).2.txn_waits_
      = if s.lock_table_ key = [] then s.txn_waits_
        else setAt s.txn_waits_ txn (some ((s.txn_waits_ txn).getD 0 + 1)) := by
  cases hq : s.lock_table_ key <;> simp [LockManagerA.WriteLock, hq]

/-- `LockManagerA::WriteLock` never touches the ready deque. -/
theorem LockManagerA.WriteLock_ready_txns (s : LockManagerA) (txn : Txn) (key : Key) :
    (s.WriteLock txn key).2.ready_txns_ = s.ready_txns_ := by
  cases hq : s.lock_table_ key <;> simp [LockManagerA.WriteLock, hq]

/-- A new transaction joins the queue of `K`. -/
theorem FifoState_WriteLock (s : LockManagerA) (K : Key) (ts : List Txn) (ready : List Txn)
    (t : Txn) (h : FifoState s K ts ready) (ht : t ∉ ts) :
    FifoState (s.WriteLock t K).2 K (ts ++ [t]) ready := by
  obtain ⟨hq, hw, hr⟩ := h
  refine ⟨?_, ?_, ?_⟩
  · rw [LockManagerA.WriteLock_lock_table, setAt_same, hq]
    simp
  · intro x
    rw [LockManagerA.WriteLock_txn_waits, hq]
    cases ts with
    | nil => simpa using hw x
    | cons a rest =>
      have hta : t ∉ rest := fun h => ht (List.mem_cons_of_mem _ h)
      simp only [List.map_cons, List.cons_ne_nil, if_false, List.cons_append, List.tail_cons]
      by_cases hx : x = t
      · subst hx
        rw [setAt_same, hw x]
        simp [hta]
      · rw [setAt_ne _ _ hx, hw x]
        simp [hx]
  · rw [LockManagerA.WriteLock_ready_txns, hr]

/-- New transactions join the queue of `K` one after the other. -/
theorem FifoState_acquireAll (K : Key) (ts pre : List Txn) (ready : List Txn)
    (s : LockManagerA) (h : FifoState s K pre ready) (hnd : (pre ++ ts).Nodup) :
    FifoState (s.run (acquireAll ts K)) K (pre ++ ts) ready := by
  induction ts generalizing s pre with
  | nil => simpa [acquireAll, LockManagerA.run] using h
  | cons t rest ih =>
    have ht : t ∉ pre := by
      intro hm
      have := List.nodup_append.mp hnd
      exact this.2.2 hm (List.mem_cons_self _ _)
    have h1 := FifoState_WriteLock s K pre ready t h ht
    have h2 := ih (pre ++ [t]) _ h1 (by simpa using hnd)
    simpa [acquireAll, LockManagerA.run, LockManagerA.step] using h2

/-- The head of the queue of `K` releases: the next transaction, if any, is made
ready. -/
theorem FifoState_Release (s : LockManagerA) (K : Key) (t : Txn) (rest : List Txn)
    (ready : List Txn) (h : FifoState s K (t :: rest) ready) (hnd : (t :: rest).Nodup) :
    FifoState (s.Release t K) K rest (ready ++ rest.take 1) := by
  obtain ⟨hq, hw, hr⟩ := h
  cases rest with
  | nil =>
    rw [LockManagerA.Release_head_last s t K ⟨EXCLUSIVE, t⟩ (by simpa using hq) rfl]
    refine ⟨by simp, ?_, by simpa using hr⟩
    intro x
    simpa using hw x
  | cons n rest2 =>
    have hq2 : s.lock_table_ K = ⟨EXCLUSIVE, t⟩ :: ⟨EXCLUSIVE, n⟩
        :: rest2.map (fun t => (⟨EXCLUSIVE, t⟩ : LockRequest)) := by simpa using hq
    rw [LockManagerA.Release_head_next s t K _ _ _ hq2 rfl]
    have hn : s.txn_waits_ n = some 1 := by
      rw [hw n]
      simp
    have hnd2 := (List.nodup_cons.mp hnd).2
    have hn2 : n ∉ rest2 := (List.nodup_cons.mp hnd2).1
    simp only [hn, Option.getD_some, sub_self, if_true]
    refine ⟨by simp, ?_, by simp [hr]⟩
    intro x
    show setAt s.txn_waits_ n none x = _
    by_cases hx : x = n
    · subst hx
      simp [hn2]
    · rw [setAt_ne _ _ hx, hw x]
      simp [hx]

/-- The first `j + 1` elements are the first one and then `j` of the rest. -/
theorem take_succ_eq (l : List Txn) (j : Nat) : l.take 1 ++ l.tail.take j = l.take (j + 1) := by
  cases l <;> simp

/-- The transactions at the front of the queue of `K` release in order. -/
theorem FifoState_releaseAll (K : Key) (pre post : List Txn) (ready : List Txn)
    (s : LockManagerA) (h : FifoState s K (pre ++ post) ready) (hnd : (pre ++ post).Nodup) :
    FifoState (s.run (releaseAll pre K)) K post
      (ready ++ (pre ++ post).tail.take pre.length) := by
  induction pre generalizing s ready with
  | nil => simpa [releaseAll, LockManagerA.run] using h
  | cons t rest ih =>
    have h1 := FifoState_Release s K t (rest ++ post) ready h hnd
    have h2 := ih _ _ h1 (List.nodup_cons.mp hnd).2
    have e : ready ++ (rest ++ post).take 1 ++ (rest ++ post).tail.take rest.length
        = ready ++ (t :: rest ++ post).tail.take (t :: rest).length := by
      rw [List.append_assoc, take_succ_eq]
      simp
    rw [e] at h2
    simpa [releaseAll, LockManagerA.run, LockManagerA.step] using h2

/-- A fresh manager has an empty queue for `K`. -/
theorem FifoState_new (K : Key) (ready : List Txn) :
    FifoState (LockManagerA.new ready) K [] ready :=
  ⟨rfl, fun _ => rfl, rfl⟩

/-! ### Releases by the owner only (`LockManagerA`) -/

/-- When every release is issued by the owner, no request is released behind the head. -/
theorem earlyReleases_of_releasesOwned (cs : List Call) (s : LockManagerA) (t : Txn)
    (h : releasesOwned s cs = true) : earlyReleases s cs t = 0 := by
  induction cs generalizing s with
  | nil => rfl
  | cons c rest ih =>
    cases c with
    | WriteLock txn key =>
      simp only [releasesOwned, Bool.true_and] at h
      simp only [earlyReleases, ih _ h]
    | ReadLock txn key =>
      simp only [releasesOwned, Bool.true_and] at h
      simp only [earlyReleases, ih _ h]
    | Release txn key =>
      simp only [releasesOwned, Bool.and_eq_true] at h
      simp only [earlyReleases, ih _ h.2, Nat.add_zero]
      have h1 := h.1
      cases hq : s.lock_table_ key with
      | nil => simp [releasesQueued, hq]
      | cons head tl =>
        rw [hq] at h1
        have : head.txn_ = txn := by simpa using h1
        simp [releasesQueued, hq, this]

/-- The calls before any point of a sequence of owner-only releases are themselves a
sequence of owner-only releases. -/
theorem releasesOwned_of_append (cs1 cs2 : List Call) (s : LockManagerA)
    (h : releasesOwned s (cs1 ++ cs2) = true) : releasesOwned s cs1 = true := by
  induction cs1 generalizing s with
  | nil => rfl
  | cons c rest ih =>
    cases c with
    | WriteLock txn key =>
      simp only [List.cons_append, releasesOwned, Bool.true_and] at h ⊢
      exact ih _ h
    | ReadLock txn key =>
      simp only [List.cons_append, releasesOwned, Bool.true_and] at h ⊢
      exact ih _ h
    | Release txn key =>
      simp only [List.cons_append, releasesOwned, Bool.and_eq_true] at h ⊢
      exact ⟨h.1, ih _ h.2⟩

/-- Over a cover, the count is positive exactly when some request of `t` is behind the
head of a queue. -/
theorem pending_pos_iff (tbl : Key → List LockRequest) (ks : List Key) (t : Txn)
    (hc : Covers tbl ks) :
    0 < pending tbl ks t ↔ ∃ k, ∃ r ∈ (tbl k).tail, r.txn_ = t := by
  constructor
  · intro h
    have : ∃ k ∈ ks, 0 < ungranted t (tbl k) := by
      clear hc
      induction ks with
      | nil => simp [pending] at h
      | cons a rest ih =>
        simp only [pending, List.map_cons, List.sum_cons] at h ih
        by_cases ha : 0 < ungranted t (tbl a)
        · exact ⟨a, List.mem_cons_self _ _, ha⟩
        · obtain ⟨k, hk, hk2⟩ := ih (by omega)
          exact ⟨k, List.mem_cons_of_mem _ hk, hk2⟩
    obtain ⟨k, _, hk⟩ := this
    unfold ungranted at hk
    rw [List.countP_pos_iff] at hk
    obtain ⟨r, hr, hrt⟩ := hk
    exact ⟨k, r, hr, by simpa using hrt⟩
  · rintro ⟨k, r, hr, hrt⟩
    have hne : tbl k ≠ [] := by
      intro e
      rw [e] at hr
      simp at hr
    have hk := hc.2 k hne
    by_contra h0
    have hz := ungranted_of_pending_zero tbl ks t k hk (by omega)
    unfold ungranted at hz
    rw [List.countP_eq_zero] at hz
    exact hz r hr (by simpa using hrt)

/-! ### The loop of `Status` across an exclusive request -/

/-- A queue holding an exclusive request splits at the first such request. -/
theorem exists_first_exclusive (q : List LockRequest)
    (h : ∃ r ∈ q, r.mode_ = EXCLUSIVE) :
    ∃ l1 x l2, q = l1 ++ x :: l2 ∧ x.mode_ = EXCLUSIVE ∧ ∀ r ∈ l1, r.mode_ ≠ EXCLUSIVE := by
  induction q with
  | nil => simp at h
  | cons a rest ih =>
    by_cases ha : a.mode_ = EXCLUSIVE
    · exact ⟨[], a, rest, rfl, ha, by simp⟩
    · obtain ⟨r, hr, hrm⟩ := h
      have hr2 : r ∈ rest := by
        rcases List.mem_cons.mp hr with h1 | h1
        · exact absurd (h1 ▸ hrm) ha
        · exact h1
      obtain ⟨l1, x, l2, hq, hx, hl1⟩ := ih ⟨r, hr2, hrm⟩
      refine ⟨a :: l1, x, l2, by simp [hq], hx, ?_⟩
      intro y hy
      rcases List.mem_cons.mp hy with h1 | h1
      · exact h1 ▸ ha
      · exact hl1 y h1

namespace LockManagerB

/-- The loop of `Status` runs through requests that are not exclusive and pushes each
of them. -/
theorem statusLoop_append (q q2 : List LockRequest) (mode : LockMode) (acc : List Txn)
    (hq : ∀ r ∈ q, r.mode_ ≠ EXCLUSIVE) :
    statusLoop (q ++ q2) mode acc = statusLoop q2 (lastMode q mode) (acc ++ q.map (·.txn_)) := by
  induction q generalizing mode acc with
  | nil => simp [lastMode]
  | cons r rest ih =>
    have hr : r.mode_ ≠ EXCLUSIVE := hq r (List.mem_cons_self _ _)
    have hrest : ∀ x ∈ rest, x.mode_ ≠ EXCLUSIVE := fun x hx => hq x (List.mem_cons_of_mem _ hx)
    rw [List.cons_append, statusLoop]
    simp only [hr, false_and, if_false]
    rw [ih _ _ hrest]
    simp [lastMode]

/-- The loop of `Status` at an exclusive request: it stops before it when `mode` is
`SHARED` and right after it otherwise. -/
theorem statusLoop_exclusive (x : LockRequest) (rest : List LockRequest) (mode : LockMode)
    (acc : List Txn) (hx : x.mode_ = EXCLUSIVE) :
    statusLoop (x :: rest) mode acc
      = if mode = SHARED then (mode, acc) else (EXCLUSIVE, acc ++ [x.txn_]) := by
  rw [statusLoop]
  by_cases hm : mode = SHARED <;> simp [hx, hm]

/-- Pushing requests that are not exclusive never leaves `mode` at `EXCLUSIVE`. -/
theorem lastMode_ne_exclusive (q : List LockRequest) (mode : LockMode)
    (hq : ∀ r ∈ q, r.mode_ ≠ EXCLUSIVE) (hm : mode ≠ EXCLUSIVE) :
    lastMode q mode ≠ EXCLUSIVE := by
  induction q generalizing mode with
  | nil => exact hm
  | cons r rest ih =>
    exact ih _ (fun x hx => hq x (List.mem_cons_of_mem _ hx)) (hq r (List.mem_cons_self _ _))

end LockManagerB

namespace LockManagerB

/-- When `_addLock` grants. -/
theorem addLock_fst (s : LockManagerB) (m : LockMode) (txn : Txn) (key : Key) :
    ((s._addLock m txn key).1 = true ↔
      ((s.Status key none).1 = UNLOCKED ∨ (m = SHARED ∧ s._numExclusiveWaiting key = 0))) := by
  unfold _addLock
  by_cases hm : m = SHARED
  · by_cases hs : (s.Status key none).1 = UNLOCKED <;>
      by_cases hn : s._numExclusiveWaiting key = 0 <;>
      simp [hm, hs, hn, _noExclusiveWaiting]
  · by_cases hs : (s.Status key none).1 = UNLOCKED <;> simp [hm, hs]

/-- The mode `Status` reports, in terms of the loop. -/
theorem Status_fst (s : LockManagerB) (key : Key) (o : Option (List Txn)) :
    (s.Status key o).1
      = if s.lock_table_ key = [] then UNLOCKED
        else (statusLoop (s.lock_table_ key) EXCLUSIVE []).1 := by
  unfold Status
  cases hq : s.lock_table_ key with
  | nil => simp
  | cons a rest =>
    cases o <;> simp

/-- The owners `Status` writes for a non-empty queue, in terms of the loop. -/
theorem Status_snd (s : LockManagerB) (key : Key) (o : List Txn)
    (hq : s.lock_table_ key ≠ []) :
    (s.Status key (some o)).2 = some (statusLoop (s.lock_table_ key) EXCLUSIVE []).2 := by
  unfold Status
  cases h : s.lock_table_ key with
  | nil => exact absurd h hq
  | cons a rest => simp

/-- Once the queue holds an exclusive request, the loop of `Status` stops at
it: requests appended to the queue are not reached, the mode found is not
`UNLOCKED`, and the owners are taken from the queue. -/
theorem statusLoop_stops (q extra : List LockRequest) (h : ∃ r ∈ q, r.mode_ = EXCLUSIVE) :
    statusLoop (q ++ extra) EXCLUSIVE [] = statusLoop q EXCLUSIVE []
      ∧ (statusLoop q EXCLUSIVE []).1 ≠ UNLOCKED
      ∧ ∀ t ∈ (statusLoop q EXCLUSIVE []).2, t ∈ q.map (·.txn_) := by
  obtain ⟨l1, x, l2, hq, hx, hl1⟩ := exists_first_exclusive q h
  subst hq
  have e1 : statusLoop (l1 ++ x :: l2 ++ extra) EXCLUSIVE []
      = if lastMode l1 EXCLUSIVE = SHARED then (lastMode l1 EXCLUSIVE, [] ++ l1.map (·.txn_))
        else (EXCLUSIVE, [] ++ l1.map (·.txn_) ++ [x.txn_]) := by
    rw [List.append_assoc, List.cons_append, statusLoop_append _ _ _ _ hl1,
      statusLoop_exclusive _ _ _ _ hx]
  have e2 : statusLoop (l1 ++ x :: l2) EXCLUSIVE []
      = if lastMode l1 EXCLUSIVE = SHARED then (lastMode l1 EXCLUSIVE, [] ++ l1.map (·.txn_))
        else (EXCLUSIVE, [] ++ l1.map (·.txn_) ++ [x.txn_]) := by
    rw [statusLoop_append _ _ _ _ hl1, statusLoop_exclusive _ _ _ _ hx]
  refine ⟨by rw [e1, e2], ?_, ?_⟩
  · rw [e2]
    by_cases hm : lastMode l1 EXCLUSIVE = SHARED <;> simp [hm]
  · rw [e2]
    intro t ht
    by_cases hm : lastMode l1 EXCLUSIVE = SHARED
    · simp only [hm, if_true, List.nil_append] at ht
      simp only [List.map_append, List.mem_append]
      exact Or.inl ht
    · simp only [hm, if_false, List.nil_append] at ht
      simp only [List.map_append, List.mem_append, List.map_cons, List.mem_cons]
      rcases List.mem_append.mp ht with h1 | h1
      · exact Or.inl h1
      · simp at h1
        exact Or.inr (Or.inl h1)

end LockManagerB

/-! ## The claims -/

/-- C1: `_addLock` (and so `ReadLock` and `WriteLock`, which only call it)
returns true exactly when `Status` of the key was `UNLOCKED` before the call, or
the requested mode is `SHARED` and `_numExclusiveWaiting[key]` was `0` before
the call; an `EXCLUSIVE` request on a key that is not `UNLOCKED` is refused. -/
theorem C1_addLock_grant_rule (s : LockManagerB) (lockMode : LockMode) (txn : Txn) (key : Key) :
    ((s._addLock lockMode txn key).1 = true ↔
        ((s.Status key none).1 = UNLOCKED ∨
          (lockMode = SHARED ∧ s._numExclusiveWaiting key = 0)))
      ∧ s.ReadLock txn key = s._addLock SHARED txn key
      ∧ s.WriteLock txn key = s._addLock EXCLUSIVE txn key
      ∧ ((s.Status key none).1 ≠ UNLOCKED → (s.WriteLock txn key).1 = false) := by
  refine ⟨?_, rfl, rfl, ?_⟩
  · unfold LockManagerB._addLock
    by_cases hm : lockMode = SHARED
    · by_cases hs : (s.Status key none).1 = UNLOCKED <;>
        by_cases hn : s._numExclusiveWaiting key = 0 <;>
        simp [hm, hs, hn, LockManagerB._noExclusiveWaiting]
    · by_cases hs : (s.Status key none).1 = UNLOCKED <;> simp [hm, hs]
  · intro hs
    unfold LockManagerB.WriteLock LockManagerB._addLock
    simp [hs]

/-- C2: on an empty queue `Status` returns `UNLOCKED` through the early return
of line 176 and never writes `*owners`: a vector that held `[7]` on entry still
holds `[7]`, where the claim has no owners. On a non-empty queue the same call
overwrites the vector. -/
theorem C2_Status_empty_queue_keeps_owners :
    (LockManagerB.new []).lock_table_ 5 = []
      ∧ (LockManagerB.new []).Status 5 (some [7]) = (UNLOCKED, some [7])
      ∧ ((LockManagerB.new []).ReadLock 1 5).2.Status 5 (some [7]) = (SHARED, some [1]) := by
  refine ⟨rfl, ?_, ?_⟩ <;> decide

/-- C3: `LockManagerB::Release` decides whether to decrement
`_numExclusiveWaiting[key]` from `it->mode_` read after `queue->erase(it)`, not
from the request it removed. On the queue `[S 1, S 2, S 3, X 4]` with counter
`1`, `Release(3, key)` removes the shared request of `3`; the counter afterwards
is `0` exactly when the slot read is `EXCLUSIVE`, and with the `deque` of
libstdc++ the slot holds the exclusive request of `4`: the counter drops to `0`
while that request is still queued, where the claim leaves it at `1`. -/
theorem C3_B_Release_counter_follows_erased_slot :
    (let s := ((((LockManagerB.new []).ReadLock 1 5).2.ReadLock 2 5).2.ReadLock 3 5).2.WriteLock 4 5
    let q : List LockRequest := [⟨SHARED, 1⟩, ⟨SHARED, 2⟩, ⟨SHARED, 3⟩, ⟨EXCLUSIVE, 4⟩]
    s.2.lock_table_ 5 = q
      ∧ s.2._numExclusiveWaiting 5 = 1
      ∧ (∀ slot : ErasedSlot,
          (LockManagerB.Release slot s.2 3 5)._numExclusiveWaiting 5
            = if slot q 2 = EXCLUSIVE then 0 else 1)
      ∧ slotOfErased q 2 = SHARED
      ∧ slotLibstdcxx q 2 = EXCLUSIVE
      ∧ (LockManagerB.Release slotLibstdcxx s.2 3 5)._numExclusiveWaiting 5 = 0
      ∧ (LockManagerB.Release slotLibstdcxx s.2 3 5).lock_table_ 5
          = [⟨SHARED, 1⟩, ⟨SHARED, 2⟩, ⟨EXCLUSIVE, 4⟩]) := by
  intro s q
  have hq : s.2.lock_table_ 5 = q := by decide
  have hn : s.2._numExclusiveWaiting 5 = 1 := by decide
  refine ⟨hq, hn, ?_, by decide, by decide, by decide, by decide⟩
  intro slot
  unfold LockManagerB.Release
  simp only [LockManagerB.wakeOwners_numExclusiveWaiting, hq]
  have hf : LockManagerB.firstOwned 3 q = some 2 := by decide
  rw [hf]
  by_cases h : slot q 2 = EXCLUSIVE <;> simp [h, hn]

/-- C4: `LockManagerA::WriteLock` (and `ReadLock`, the same function) appends
one `EXCLUSIVE` request of `txn` at the tail of the queue of `key`, returns true
exactly when that queue was empty before, adds one to the wait count of `txn`
when it returns false, and leaves `txn_waits_` and the ready deque as they were
when it returns true. -/
theorem C4_A_WriteLock_contract (s : LockManagerA) (txn : Txn) (key : Key) :
    s.ReadLock txn key = s.WriteLock txn key
      ∧ (s.WriteLock txn key).2.lock_table_ key = s.lock_table_ key ++ [⟨EXCLUSIVE, txn⟩]
      ∧ ((s.WriteLock txn key).1 = true ↔ s.lock_table_ key = [])
      ∧ ((s.WriteLock txn key).1 = false →
          (s.WriteLock txn key).2.txn_waits_ txn = some ((s.txn_waits_ txn).getD 0 + 1))
      ∧ ((s.WriteLock txn key).1 = true →
          (s.WriteLock txn key).2.txn_waits_ = s.txn_waits_)
      ∧ (s.WriteLock txn key).2.ready_txns_ = s.ready_txns_
      ∧ (∀ k, k ≠ key → (s.WriteLock txn key).2.lock_table_ k = s.lock_table_ k)
      ∧ (∀ t, t ≠ txn → (s.WriteLock txn key).2.txn_waits_ t = s.txn_waits_ t) := by
  refine ⟨rfl, ?_, ?_, ?_, ?_, ?_, ?_, ?_⟩
  · cases hq : s.lock_table_ key <;> simp [LockManagerA.WriteLock, hq]
  · cases hq : s.lock_table_ key <;> simp [LockManagerA.WriteLock, hq]
  · cases hq : s.lock_table_ key <;> simp [LockManagerA.WriteLock, hq]
  · cases hq : s.lock_table_ key <;> simp [LockManagerA.WriteLock, hq]
  · cases hq : s.lock_table_ key <;> simp [LockManagerA.WriteLock, hq]
  · intro k hk
    cases hq : s.lock_table_ key <;> simp [LockManagerA.WriteLock, hq, setAt_ne _ _ hk]
  · intro t ht
    cases hq : s.lock_table_ key <;> simp [LockManagerA.WriteLock, hq, setAt_ne _ _ ht]

/-- C5: when `txn` has a request in the queue of `key`, `LockManagerA::Release`
removes the first such request and keeps the others in order (the queue
`l1 ++ r :: l2`, split at that request, becomes `l1 ++ l2`). If the request was
the head and a request `next` follows it, the wait count of `next.txn_` goes
down by one; when that gives zero the entry is erased and `next.txn_` is
appended to the ready deque, otherwise the ready deque is unchanged. If the
request was not the head, or nothing follows it, `txn_waits_` and the ready
deque are unchanged. -/
theorem C5_A_Release_contract (s : LockManagerA) (txn : Txn) (key : Key)
    (h : ∃ r ∈ s.lock_table_ key, r.txn_ = txn) :
    ∃ l1 r l2,
      s.lock_table_ key = l1 ++ r :: l2 ∧ r.txn_ = txn ∧ (∀ x ∈ l1, x.txn_ ≠ txn)
      ∧ (s.Release txn key).lock_table_ key = l1 ++ l2
      ∧ (∀ k, k ≠ key → (s.Release txn key).lock_table_ k = s.lock_table_ k)
      ∧ (l1 = [] → ∀ next rest, l2 = next :: rest →
          ((s.txn_waits_ next.txn_).getD 0 - 1 = 0 →
              (s.Release txn key).txn_waits_ = setAt s.txn_waits_ next.txn_ none
              ∧ (s.Release txn key).ready_txns_ = s.ready_txns_ ++ [next.txn_])
          ∧ ((s.txn_waits_ next.txn_).getD 0 - 1 ≠ 0 →
              (s.Release txn key).txn_waits_
                  = setAt s.txn_waits_ next.txn_ (some ((s.txn_waits_ next.txn_).getD 0 - 1))
              ∧ (s.Release txn key).ready_txns_ = s.ready_txns_))
      ∧ (l1 = [] → l2 = [] →
          (s.Release txn key).txn_waits_ = s.txn_waits_
          ∧ (s.Release txn key).ready_txns_ = s.ready_txns_)
      ∧ (l1 ≠ [] →
          (s.Release txn key).txn_waits_ = s.txn_waits_
          ∧ (s.Release txn key).ready_txns_ = s.ready_txns_) := by
  obtain ⟨l1, r, l2, hq, hr, hl1⟩ := exists_first_owned txn _ h
  have hloop := LockManagerA.releaseLoop_split txn l1 r l2 true hr hl1
  refine ⟨l1, r, l2, hq, hr, hl1, ?_, ?_, ?_, ?_, ?_⟩
  · rw [LockManagerA.Release_queues, hq, hloop, setAt_same]
  · intro k hk
    rw [LockManagerA.Release_queues, setAt_ne _ _ hk]
  · intro h1 next rest h2
    subst h1 h2
    unfold LockManagerA.Release
    rw [hq, hloop]
    constructor
    · intro hc
      simp [hc]
    · intro hc
      simp [hc]
  · intro h1 h2
    subst h1 h2
    unfold LockManagerA.Release
    rw [hq, hloop]
    simp
  · intro h1
    unfold LockManagerA.Release
    rw [hq, hloop]
    simp only [h1, if_false]
    split <;> simp

/-- C5 at `exampleA`, where `1` releases key `5`. -/
theorem C5_A_Release_contract_witness :
    (∃ r ∈ exampleA.lock_table_ 5, r.txn_ = 1)
    ∧ ∃ l1 r l2,
      exampleA.lock_table_ 5 = l1 ++ r :: l2 ∧ r.txn_ = 1 ∧ (∀ x ∈ l1, x.txn_ ≠ 1)
      ∧ (exampleA.Release 1 5).lock_table_ 5 = l1 ++ l2
      ∧ (∀ k, k ≠ 5 → (exampleA.Release 1 5).lock_table_ k = exampleA.lock_table_ k)
      ∧ (l1 = [] → ∀ next rest, l2 = next :: rest →
          ((exampleA.txn_waits_ next.txn_).getD 0 - 1 = 0 →
              (exampleA.Release 1 5).txn_waits_ = setAt exampleA.txn_waits_ next.txn_ none
              ∧ (exampleA.Release 1 5).ready_txns_ = exampleA.ready_txns_ ++ [next.txn_])
          ∧ ((exampleA.txn_waits_ next.txn_).getD 0 - 1 ≠ 0 →
              (exampleA.Release 1 5).txn_waits_
                  = setAt exampleA.txn_waits_ next.txn_
                      (some ((exampleA.txn_waits_ next.txn_).getD 0 - 1))
              ∧ (exampleA.Release 1 5).ready_txns_ = exampleA.ready_txns_))
      ∧ (l1 = [] → l2 = [] →
          (exampleA.Release 1 5).txn_waits_ = exampleA.txn_waits_
          ∧ (exampleA.Release 1 5).ready_txns_ = exampleA.ready_txns_)
      ∧ (l1 ≠ [] →
          (exampleA.Release 1 5).txn_waits_ = exampleA.txn_waits_
          ∧ (exampleA.Release 1 5).ready_txns_ = exampleA.ready_txns_) :=
  ⟨⟨⟨EXCLUSIVE, 1⟩, by decide, rfl⟩,
    C5_A_Release_contract exampleA 1 5 ⟨⟨EXCLUSIVE, 1⟩, by decide, rfl⟩⟩

/-- C6: the scenario of variant B on a fresh manager with an empty ready deque.
`ReadLock(T1,K)` and `ReadLock(T2,K)` return true and `Status(K)` is
`(SHARED, [T1, T2])`; `WriteLock(T3,K)` returns false with
`_numExclusiveWaiting[K] = 1`; `ReadLock(T4,K)` returns false; after
`Release(T1,K)` the status is `(SHARED, [T2])` and the ready deque is empty;
after `Release(T2,K)` it is `(EXCLUSIVE, [T3])` with ready deque `[T3]`; after
`Release(T3,K)` it is `(SHARED, [T4])` with ready deque `[T3, T4]`. This holds
whatever the read of line 149 returns, and needs only `T2`, `T3`, `T4` pairwise
distinct. -/
theorem C6_B_scenario (slot : ErasedSlot) (K : Key) (T1 T2 T3 T4 : Txn)
    (h23 : T2 ≠ T3) (h24 : T2 ≠ T4) (h34 : T3 ≠ T4) :
    (let r1 := (LockManagerB.new []).ReadLock T1 K
    let r2 := r1.2.ReadLock T2 K
    let r3 := r2.2.WriteLock T3 K
    let r4 := r3.2.ReadLock T4 K
    let s5 := LockManagerB.Release slot r4.2 T1 K
    let s6 := LockManagerB.Release slot s5 T2 K
    let s7 := LockManagerB.Release slot s6 T3 K
    r1.1 = true ∧ r2.1 = true ∧ (∀ o, r2.2.Status K (some o) = (SHARED, some [T1, T2]))
      ∧ r3.1 = false ∧ r3.2._numExclusiveWaiting K = 1 ∧ r4.1 = false
      ∧ (∀ o, s5.Status K (some o) = (SHARED, some [T2])) ∧ s5.ready_txns_ = []
      ∧ (∀ o, s6.Status K (some o) = (EXCLUSIVE, some [T3])) ∧ s6.ready_txns_ = [T3]
      ∧ (∀ o, s7.Status K (some o) = (SHARED, some [T4])) ∧ s7.ready_txns_ = [T3, T4]) := by
  intro r1 r2 r3 r4 s5 s6 s7
  have e1 : r1 = (true, ⟨setAt (fun _ => []) K [⟨SHARED, T1⟩], fun _ => none, [],
      fun _ => 0⟩) := by
    simp [r1, LockManagerB.new, LockManagerB.ReadLock, LockManagerB._addLock,
      LockManagerB.Status]
  have e2 : r2 = (true, ⟨setAt (fun _ => []) K [⟨SHARED, T1⟩, ⟨SHARED, T2⟩], fun _ => none, [],
      fun _ => 0⟩) := by
    simp [r2, e1, LockManagerB.ReadLock, LockManagerB._addLock, LockManagerB.Status,
      LockManagerB._noExclusiveWaiting]
  have e3 : r3 = (false, ⟨setAt (fun _ => []) K [⟨SHARED, T1⟩, ⟨SHARED, T2⟩, ⟨EXCLUSIVE, T3⟩],
      setAt (fun _ => none) T3 (some 1), [], setAt (fun _ => 0) K 1⟩) := by
    simp [r3, e2, LockManagerB.WriteLock, LockManagerB._addLock, LockManagerB.Status,
      LockManagerB.statusLoop]
  have e4 : r4 = (false, ⟨setAt (fun _ => []) K
        [⟨SHARED, T1⟩, ⟨SHARED, T2⟩, ⟨EXCLUSIVE, T3⟩, ⟨SHARED, T4⟩],
      setAt (setAt (fun _ => none) T3 (some 1)) T4 (some 1), [], setAt (fun _ => 0) K 1⟩) := by
    simp [r4, e3, LockManagerB.ReadLock, LockManagerB._addLock, LockManagerB.Status,
      LockManagerB.statusLoop, LockManagerB._noExclusiveWaiting]
    simp [setAt, h34.symm]
  obtain ⟨n5, e5⟩ := LockManagerB.Release_unfold slot r4.2 T1 K
  have e5' : s5 = ⟨setAt (fun _ => []) K [⟨SHARED, T2⟩, ⟨EXCLUSIVE, T3⟩, ⟨SHARED, T4⟩],
      setAt (setAt (fun _ => none) T3 (some 1)) T4 (some 1), [], n5⟩ := by
    show LockManagerB.Release slot r4.2 T1 K = _
    rw [e5, e4]
    simp [LockManagerB.firstOwned, LockManagerB.Status, LockManagerB.statusLoop,
      LockManagerB.wakeOwners]
    simp [setAt, h23, h24]
  obtain ⟨n6, e6⟩ := LockManagerB.Release_unfold slot s5 T2 K
  have e6' : s6 = ⟨setAt (fun _ => []) K [⟨EXCLUSIVE, T3⟩, ⟨SHARED, T4⟩],
      setAt (setAt (setAt (fun _ => none) T3 (some 1)) T4 (some 1)) T3 none, [T3], n6⟩ := by
    show LockManagerB.Release slot s5 T2 K = _
    rw [e6, e5']
    simp [LockManagerB.firstOwned, LockManagerB.Status, LockManagerB.statusLoop,
      LockManagerB.wakeOwners]
    simp [setAt, h34]
  obtain ⟨n7, e7⟩ := LockManagerB.Release_unfold slot s6 T3 K
  have e7' : s7 = ⟨setAt (fun _ => []) K [⟨SHARED, T4⟩],
      setAt (setAt (setAt (setAt (fun _ => none) T3 (some 1)) T4 (some 1)) T3 none) T4 none,
      [T3, T4], n7⟩ := by
    show LockManagerB.Release slot s6 T3 K = _
    rw [e7, e6']
    simp [LockManagerB.firstOwned, LockManagerB.Status, LockManagerB.statusLoop,
      LockManagerB.wakeOwners]
    simp [setAt, h34.symm]
  rw [e1, e2, e3, e4, e5', e6', e7']
  simp [LockManagerB.Status, LockManagerB.statusLoop]

/-- C6 at key `5` and transactions `1`, `2`, `3`, `4`, with the read of line 149
as libstdc++ gives it. -/
theorem C6_B_scenario_witness :
    ((2 : Txn) ≠ 3 ∧ (2 : Txn) ≠ 4 ∧ (3 : Txn) ≠ 4) ∧
    (let r1 := (LockManagerB.new []).ReadLock 1 5
     let r2 := r1.2.ReadLock 2 5
     let r3 := r2.2.WriteLock 3 5
     let r4 := r3.2.ReadLock 4 5
     let s5 := LockManagerB.Release slotLibstdcxx r4.2 1 5
     let s6 := LockManagerB.Release slotLibstdcxx s5 2 5
     let s7 := LockManagerB.Release slotLibstdcxx s6 3 5
     r1.1 = true ∧ r2.1 = true ∧ (∀ o, r2.2.Status 5 (some o) = (SHARED, some [1, 2]))
      ∧ r3.1 = false ∧ r3.2._numExclusiveWaiting 5 = 1 ∧ r4.1 = false
      ∧ (∀ o, s5.Status 5 (some o) = (SHARED, some [2])) ∧ s5.ready_txns_ = []
      ∧ (∀ o, s6.Status 5 (some o) = (EXCLUSIVE, some [3])) ∧ s6.ready_txns_ = [3]
      ∧ (∀ o, s7.Status 5 (some o) = (SHARED, some [4])) ∧ s7.ready_txns_ = [3, 4]) :=
  ⟨by decide, C6_B_scenario slotLibstdcxx 5 1 2 3 4 (by decide) (by decide) (by decide)⟩

/-- C7: the scenario of variant A on a fresh manager with an empty ready deque.
`WriteLock(T1,K)` returns true, `WriteLock(T2,K)` returns false, and after
`Release(T1,K)` the status of `K` is `(EXCLUSIVE, [T2])`, the ready deque is
`[T2]` and `T2` has no entry in `txn_waits_`. (It holds for `T1 = T2` too.) -/
theorem C7_A_scenario (K : Key) (T1 T2 : Txn) :
    (let r1 := (LockManagerA.new []).WriteLock T1 K
    let r2 := r1.2.WriteLock T2 K
    let s3 := r2.2.Release T1 K
    r1.1 = true ∧ r2.1 = false ∧ (∀ o, s3.Status K o = (EXCLUSIVE, [T2]))
      ∧ s3.ready_txns_ = [T2] ∧ s3.txn_waits_ T2 = none) := by
  intro r1 r2 s3
  simp [r1, r2, s3, LockManagerA.new, LockManagerA.WriteLock, LockManagerA.Release,
    LockManagerA.Status, LockManagerA.releaseLoop, setAt]

/-- C8: after any sequence of `WriteLock`/`ReadLock`/`Release` calls on a fresh
`LockManagerA`, a `Release` leaves the ready deque as it was or appends one
transaction to it; and when it appends `T`, then right after the call no
request of `T` stands behind the head of any queue. -/
theorem C8_A_ready_only_when_granted (ready_txns : List Txn) (cs : List Call)
    (txn : Txn) (key : Key) :
    (let s := (LockManagerA.new ready_txns).run cs
    ((s.Release txn key).ready_txns_ = s.ready_txns_
        ∨ ∃ T, (s.Release txn key).ready_txns_ = s.ready_txns_ ++ [T])
      ∧ ∀ T, (s.Release txn key).ready_txns_ = s.ready_txns_ ++ [T] →
          ∀ k, ∀ r ∈ ((s.Release txn key).lock_table_ k).tail, r.txn_ ≠ T) := by
  intro s
  have hI := WaitInv_Release s _ txn key (WaitInv_run cs _ _ (WaitInv_new ready_txns))
  have hcov : ∃ ks, Covers (s.Release txn key).lock_table_ ks :=
    covers_step s (.Release txn key) (covers_run cs _ (covers_new ready_txns))
  constructor
  · rcases LockManagerA.Release_ready s txn key with h | ⟨T, h, _⟩
    · exact Or.inl h
    · exact Or.inr ⟨T, h⟩
  · intro T hT k r hr
    have hnone : (s.Release txn key).txn_waits_ T = none := by
      rcases LockManagerA.Release_ready s txn key with h | ⟨T1, h, hw⟩
      · rw [h] at hT
        have := congrArg List.length hT
        simp at this
      · rw [h] at hT
        have := List.append_cancel_left hT
        simp at this
        exact this ▸ hw
    obtain ⟨ks, hks⟩ := hcov
    obtain ⟨ks1, hks1, hk⟩ := covers_insert _ ks k hks
    have h0 := hI ks1 hks1 T
    rw [hnone] at h0
    have hz := waitEntry_eq_none _ h0.symm
    have hu := ungranted_of_pending_zero _ ks1 T k hk (Nat.eq_zero_of_add_eq_zero_right hz)
    unfold ungranted at hu
    rw [List.countP_eq_zero] at hu
    simpa using hu r hr

/-- C9: a transaction that owns the lock before and after a `Release` can be in
`txn_waits_` and be woken by it. After `WriteLock(9,6)`, `WriteLock(1,6)`,
`ReadLock(1,5)`, `ReadLock(2,5)` the owners of key `5` are `[1, 2]` and `1`
has wait count `1` for key `6`. `Release(2,5)` leaves `1` an owner of key `5`,
erases its entry and appends it to the ready deque, although its request for
key `6` is still queued behind `9`. -/
theorem C9_B_Release_wakes_continuing_owner :
    (let s := ((((LockManagerB.new []).WriteLock 9 6).2.WriteLock 1 6).2.ReadLock 1 5).2.ReadLock 2 5
    (s.2.Status 5 (some [])).2 = some [1, 2]
      ∧ s.2.txn_waits_ 1 = some 1
      ∧ s.2.ready_txns_ = []
      ∧ s.2.lock_table_ 6 = [⟨EXCLUSIVE, 9⟩, ⟨EXCLUSIVE, 1⟩]
      ∧ ∀ slot : ErasedSlot,
          ((LockManagerB.Release slot s.2 2 5).Status 5 (some [])).2 = some [1]
          ∧ (LockManagerB.Release slot s.2 2 5).txn_waits_ 1 = none
          ∧ (LockManagerB.Release slot s.2 2 5).ready_txns_ = [1]
          ∧ (LockManagerB.Release slot s.2 2 5).lock_table_ 6
              = [⟨EXCLUSIVE, 9⟩, ⟨EXCLUSIVE, 1⟩]) := by
  intro s
  have hq : s.2.lock_table_ 5 = [⟨SHARED, 1⟩, ⟨SHARED, 2⟩] := by decide
  have hw : s.2.txn_waits_ 1 = some 1 := by decide
  have hr : s.2.ready_txns_ = [] := by decide
  have h6 : s.2.lock_table_ 6 = [⟨EXCLUSIVE, 9⟩, ⟨EXCLUSIVE, 1⟩] := by decide
  refine ⟨by decide, hw, hr, h6, ?_⟩
  intro slot
  obtain ⟨n, e⟩ := LockManagerB.Release_unfold slot s.2 2 5
  rw [e]
  simp [hq, hw, hr, h6, LockManagerB.firstOwned, LockManagerB.Status, LockManagerB.statusLoop,
    LockManagerB.wakeOwners, setAt]

/-- After `earlyTrace` only key `5` has a queue, and it holds the request of
transaction `1` alone. -/
theorem earlyTrace_lock_table :
    ((LockManagerA.new []).run earlyTrace).lock_table_
      = setAt (fun _ => []) 5 [⟨EXCLUSIVE, 1⟩] := by
  simp [earlyTrace, LockManagerA.run, LockManagerA.step, LockManagerA.new,
    LockManagerA.WriteLock, LockManagerA.Release, LockManagerA.releaseLoop]

/-- After `earlyTrace` the list `[5]` covers the lock table. -/
theorem earlyTrace_covers : Covers ((LockManagerA.new []).run earlyTrace).lock_table_ [5] := by
  refine ⟨by decide, ?_⟩
  intro k hk
  rw [earlyTrace_lock_table] at hk
  by_cases h : k = 5
  · simp [h]
  · simp [setAt, h] at hk

/-- C10: `LockManagerA::Release` takes a request that is still queued out of
its queue but never takes back the `txn_waits_[txn]++` that `WriteLock` made
for it. In `earlyTrace` every `Release` is issued while its transaction has a
request in the queue, yet afterwards transaction `2` has the entry `1` and owns
no request in any queue. In `stallTrace` the stale entry then loses a wake-up:
`2` becomes the owner of key `7` and has no request behind any head, but its
entry only drops from `2` to `1`, so it keeps an entry and is never appended to
the ready deque. -/
theorem C10_A_wait_counter_stale_after_queued_release :
    releasesHeld (LockManagerA.new []) earlyTrace = true
      ∧ Covers ((LockManagerA.new []).run earlyTrace).lock_table_ [5]
      ∧ ((LockManagerA.new []).run earlyTrace).txn_waits_ 2 = some 1
      ∧ pending ((LockManagerA.new []).run earlyTrace).lock_table_ [5] 2 = 0
      ∧ (∀ k, ∀ r ∈ ((LockManagerA.new []).run earlyTrace).lock_table_ k, r.txn_ ≠ 2)
      ∧ releasesHeld (LockManagerA.new []) stallTrace = true
      ∧ ((LockManagerA.new []).run stallTrace).Status 7 [] = (EXCLUSIVE, [2])
      ∧ (∀ k, ∀ r ∈ (((LockManagerA.new []).run stallTrace).lock_table_ k).tail, r.txn_ ≠ 2)
      ∧ ((LockManagerA.new []).run stallTrace).txn_waits_ 2 = some 1
      ∧ ((LockManagerA.new []).run stallTrace).ready_txns_ = [] := by
  refine ⟨by decide, earlyTrace_covers, by decide, by decide, ?_, by decide, by decide, ?_,
    by decide, by decide⟩
  · intro k r hr
    rw [earlyTrace_lock_table] at hr
    by_cases h : k = 5
    · subst h
      simp at hr
      simp [hr]
    · simp [setAt, h] at hr
  · intro k r hr
    by_cases h5 : k = 5
    · subst h5
      have e : ((LockManagerA.new []).run stallTrace).lock_table_ 5 = [⟨EXCLUSIVE, 1⟩] := by
        decide
      rw [e] at hr
      simp at hr
    · by_cases h7 : k = 7
      · subst h7
        have e : ((LockManagerA.new []).run stallTrace).lock_table_ 7 = [⟨EXCLUSIVE, 2⟩] := by
          decide
        rw [e] at hr
        simp at hr
      · have e : ((LockManagerA.new []).run stallTrace).lock_table_ k = [] := by
          simp [stallTrace, earlyTrace, LockManagerA.run, LockManagerA.step, LockManagerA.new,
            LockManagerA.WriteLock, LockManagerA.Release, LockManagerA.releaseLoop, setAt, h5, h7]
        rw [e] at hr
        simp at hr

/-- After `ownerTrace` the keys `5` and `6` cover the lock table. -/
theorem ownerTrace_covers :
    Covers ((LockManagerA.new []).run ownerTrace).lock_table_ [5, 6] := by
  refine ⟨by decide, ?_⟩
  intro k hk
  by_cases h5 : k = 5
  · simp [h5]
  · by_cases h6 : k = 6
    · simp [h6]
    · exfalso
      apply hk
      simp [ownerTrace, LockManagerA.run, LockManagerA.step, LockManagerA.new,
        LockManagerA.WriteLock, LockManagerA.Release, LockManagerA.releaseLoop, setAt, h5, h6]

/-- C11: with the `deque` of libstdc++ the counter leaves the number of
exclusive requests. After `readerTrace` (three readers, one writer queued, the
third reader releases first) the queue of key `5` still holds the exclusive
request of `4`, but `_numExclusiveWaiting[5]` is `0`, where the claim has `1`.
A later `ReadLock(6, 5)` is then told it is granted although the owners stay
`[1, 2]`. With the read of line 149 returning the mode of the erased request
the counter is exact along every sequence of calls (`CounterInv_run`). -/
theorem C11_B_counter_leaves_exclusive_count :
    (let s := LockManagerB.run slotLibstdcxx (LockManagerB.new []) readerTrace
     s.lock_table_ 5 = [⟨SHARED, 1⟩, ⟨SHARED, 2⟩, ⟨EXCLUSIVE, 4⟩]
      ∧ exclusiveCount (s.lock_table_ 5) = 1
      ∧ s._numExclusiveWaiting 5 = 0
      ∧ (s.ReadLock 6 5).1 = true
      ∧ ((s.ReadLock 6 5).2.Status 5 (some [])).2 = some [1, 2]) := by
  decide

/-- C12: in both variants, when `Status` of a key reports `EXCLUSIVE` the
owners it writes are exactly the transaction of the request at the head of the
queue. For `LockManagerB` the queue stores only `SHARED` and `EXCLUSIVE`
requests, as every queue built by `ReadLock` and `WriteLock` does
(`NoUnlocked_run`). -/
theorem C12_exclusive_owner_is_head (sa : LockManagerA) (sb : LockManagerB) (key : Key) (o : List Txn)
    (hwf : ∀ x ∈ sb.lock_table_ key, x.mode_ ≠ UNLOCKED) :
    (∀ owners, sa.Status key o = (EXCLUSIVE, owners) →
        ∃ head rest, sa.lock_table_ key = head :: rest ∧ owners = [head.txn_])
      ∧ (∀ owners, sb.Status key (some o) = (EXCLUSIVE, some owners) →
        ∃ head rest, sb.lock_table_ key = head :: rest ∧ owners = [head.txn_]) := by
  constructor
  · intro owners h
    unfold LockManagerA.Status at h
    cases hq : sa.lock_table_ key with
    | nil => simp [hq] at h
    | cons head rest =>
      simp [hq] at h
      exact ⟨head, rest, rfl, h.symm⟩
  · intro owners h
    obtain ⟨head, rest, hq, _, ho⟩ := LockManagerB.Status_exclusive_inv sb key o owners hwf h
    exact ⟨head, rest, hq, ho⟩

/-- C12 at `exampleA` and `exampleBX`, key `5`. -/
theorem C12_exclusive_owner_is_head_witness :
    (∀ x ∈ exampleBX.lock_table_ 5, x.mode_ ≠ UNLOCKED)
    ∧ ((∀ owners, exampleA.Status 5 [] = (EXCLUSIVE, owners) →
        ∃ head rest, exampleA.lock_table_ 5 = head :: rest ∧ owners = [head.txn_])
      ∧ (∀ owners, exampleBX.Status 5 (some []) = (EXCLUSIVE, some owners) →
        ∃ head rest, exampleBX.lock_table_ 5 = head :: rest ∧ owners = [head.txn_])) :=
  ⟨by decide, C12_exclusive_owner_is_head exampleA exampleBX 5 [] (by decide)⟩

/-- C13: when `Status` of a key reports `SHARED` in `LockManagerB`, the owners
it writes are not empty, they are the transactions of the first `|owners|`
requests of the queue, in order, and each of those requests is `SHARED`. The
queue stores only `SHARED` and `EXCLUSIVE` requests, as every queue built by
`ReadLock` and `WriteLock` does (`NoUnlocked_run`). -/
theorem C13_shared_owners_are_prefix (s : LockManagerB) (key : Key) (o owners : List Txn)
    (hwf : ∀ x ∈ s.lock_table_ key, x.mode_ ≠ UNLOCKED)
    (h : s.Status key (some o) = (SHARED, some owners)) :
    owners ≠ []
      ∧ owners = ((s.lock_table_ key).take owners.length).map (·.txn_)
      ∧ ∀ r ∈ (s.lock_table_ key).take owners.length, r.mode_ = SHARED := by
  obtain ⟨ho, head, rest, hq, hm⟩ := LockManagerB.Status_shared_inv s key o owners hwf h
  have hlen : owners.length
      = ((s.lock_table_ key).takeWhile (fun r => decide (r.mode_ = SHARED))).length := by
    rw [ho, List.length_map]
  have hpre := List.prefix_iff_eq_take.mp
    (List.takeWhile_prefix (fun r : LockRequest => decide (r.mode_ = SHARED))
      (l := s.lock_table_ key))
  rw [← hlen] at hpre
  refine ⟨?_, ?_, ?_⟩
  · rw [ho, hq]
    simp [List.takeWhile_cons, hm]
  · rw [← hpre]
    exact ho
  · intro r hr
    rw [← hpre] at hr
    simpa using List.mem_takeWhile_imp hr

/-- C13 at `exampleB`, key `5`, where the owners are `[1, 2]`. -/
theorem C13_shared_owners_are_prefix_witness :
    ((∀ x ∈ exampleB.lock_table_ 5, x.mode_ ≠ UNLOCKED)
      ∧ exampleB.Status 5 (some []) = (SHARED, some [1, 2]))
    ∧ (([1, 2] : List Txn) ≠ []
      ∧ ([1, 2] : List Txn)
          = ((exampleB.lock_table_ 5).take ([1, 2] : List Txn).length).map (·.txn_)
      ∧ ∀ r ∈ (exampleB.lock_table_ 5).take ([1, 2] : List Txn).length, r.mode_ = SHARED) :=
  ⟨⟨by decide, by decide⟩,
    C13_shared_owners_are_prefix exampleB 5 [] [1, 2] (by decide) (by decide)⟩

/-- C14: on a fresh `LockManagerA`, for pairwise distinct transactions `ts` and
a key `K`: `WriteLock(ts[i], K)` in order returns true for `i = 0` only; after
the releases of `ts[0..i-1]` in order the status of `K` is
`(EXCLUSIVE, [ts[i]])` and the ready deque holds the first `i` of the waiting
transactions `ts[1..]`; after all releases the status is `UNLOCKED`, the ready
deque is `ts[1..]` and `txn_waits_` is empty. -/
theorem C14_A_fifo (K : Key) (ts : List Txn) (hnd : ts.Nodup) :
    (∀ i t, ts[i]? = some t →
        (((LockManagerA.new []).run (acquireAll (ts.take i) K)).WriteLock t K).1
          = decide (i = 0))
      ∧ (∀ i t, ts[i]? = some t → ∀ o,
          ((LockManagerA.new []).run (acquireAll ts K ++ releaseAll (ts.take i) K)).Status K o
            = (EXCLUSIVE, [t]))
      ∧ (∀ i, i ≤ ts.length →
          ((LockManagerA.new []).run (acquireAll ts K ++ releaseAll (ts.take i) K)).ready_txns_
            = ts.tail.take i)
      ∧ (∀ o, ((LockManagerA.new []).run (acquireAll ts K ++ releaseAll ts K)).Status K o
            = (UNLOCKED, o))
      ∧ ((LockManagerA.new []).run (acquireAll ts K ++ releaseAll ts K)).ready_txns_ = ts.tail
      ∧ ((LockManagerA.new []).run (acquireAll ts K ++ releaseAll ts K)).txn_waits_
          = fun _ => none := by
  have hacq : ∀ pre, pre.Nodup →
      FifoState ((LockManagerA.new []).run (acquireAll pre K)) K pre [] := by
    intro pre hpre
    have := FifoState_acquireAll K pre [] [] _ (FifoState_new K []) (by simpa using hpre)
    simpa using this
  have hrel : ∀ i, FifoState
      ((LockManagerA.new []).run (acquireAll ts K ++ releaseAll (ts.take i) K)) K (ts.drop i)
      (ts.tail.take (ts.take i).length) := by
    intro i
    rw [LockManagerA.run_append]
    have h0 := hacq ts hnd
    have e : ts.take i ++ ts.drop i = ts := List.take_append_drop i ts
    have := FifoState_releaseAll K (ts.take i) (ts.drop i) [] _ (by rw [e]; exact h0)
      (by rw [e]; exact hnd)
    rw [e] at this
    simpa using this
  refine ⟨?_, ?_, ?_, ?_, ?_, ?_⟩
  · intro i t hit
    have hi : i < ts.length := by
      by_contra hc
      rw [List.getElem?_eq_none (by omega)] at hit
      simp at hit
    have h1 := hacq (ts.take i) (List.Sublist.nodup (List.take_sublist i ts) hnd)
    rw [LockManagerA.WriteLock_fst, h1.1]
    cases i with
    | zero => simp
    | succ j =>
      cases ts with
      | nil => simp at hi
      | cons a rest => simp
  · intro i t hit o
    have hi : i < ts.length := by
      by_contra hc
      rw [List.getElem?_eq_none (by omega)] at hit
      simp at hit
    have hd : ts.drop i = t :: ts.drop (i + 1) := by
      have := List.drop_eq_getElem_cons hi
      rw [List.getElem?_eq_getElem hi] at hit
      simp at hit
      rw [this, hit]
    have h1 := (hrel i).1
    rw [hd] at h1
    unfold LockManagerA.Status
    rw [h1]
    rfl
  · intro i hi
    have h1 := (hrel i).2.2
    rw [h1, List.length_take, Nat.min_eq_left hi]
  · intro o
    have h1 := (hrel ts.length).1
    rw [List.take_length] at h1
    unfold LockManagerA.Status
    rw [h1]
    simp
  · have h1 := (hrel ts.length).2.2
    rw [List.take_length] at h1
    rw [h1]
    cases ts <;> simp
  · have h1 := (hrel ts.length).2.1
    rw [List.take_length] at h1
    funext t
    rw [h1 t]
    simp

/-- C14 at key `5` and the transactions `1`, `2`, `3`. -/
theorem C14_A_fifo_witness :
    ([1, 2, 3] : List Txn).Nodup
    ∧ ((∀ i t, ([1, 2, 3] : List Txn)[i]? = some t →
        (((LockManagerA.new []).run (acquireAll (([1, 2, 3] : List Txn).take i) 5)).WriteLock t 5).1
          = decide (i = 0))
      ∧ (∀ i t, ([1, 2, 3] : List Txn)[i]? = some t → ∀ o,
          ((LockManagerA.new []).run
              (acquireAll [1, 2, 3] 5 ++ releaseAll (([1, 2, 3] : List Txn).take i) 5)).Status 5 o
            = (EXCLUSIVE, [t]))
      ∧ (∀ i, i ≤ ([1, 2, 3] : List Txn).length →
          ((LockManagerA.new []).run
              (acquireAll [1, 2, 3] 5 ++ releaseAll (([1, 2, 3] : List Txn).take i) 5)).ready_txns_
            = ([1, 2, 3] : List Txn).tail.take i)
      ∧ (∀ o, ((LockManagerA.new []).run
              (acquireAll [1, 2, 3] 5 ++ releaseAll [1, 2, 3] 5)).Status 5 o
            = (UNLOCKED, o))
      ∧ ((LockManagerA.new []).run (acquireAll [1, 2, 3] 5 ++ releaseAll [1, 2, 3] 5)).ready_txns_
          = ([1, 2, 3] : List Txn).tail
      ∧ ((LockManagerA.new []).run (acquireAll [1, 2, 3] 5 ++ releaseAll [1, 2, 3] 5)).txn_waits_
          = fun _ => none) :=
  ⟨by decide, C14_A_fifo 5 [1, 2, 3] (by decide)⟩

/-- C15: `_addLock` appends the request `{mode, txn}` at the tail of the queue
of `key`; adds one to `_numExclusiveWaiting[key]` for an `EXCLUSIVE` request,
granted or not, and leaves it for a `SHARED` one; adds one to the wait count of
`txn` when it returns false and leaves it when it returns true; and changes
neither the ready deque, nor the queue or counter of another key, nor the wait
count of another transaction. -/
theorem C15_B_addLock_bookkeeping (s : LockManagerB) (lockMode : LockMode) (txn : Txn) (key : Key) :
    (s._addLock lockMode txn key).2.lock_table_ key = s.lock_table_ key ++ [⟨lockMode, txn⟩]
      ∧ (lockMode = EXCLUSIVE →
          (s._addLock lockMode txn key).2._numExclusiveWaiting key
            = s._numExclusiveWaiting key + 1)
      ∧ (lockMode = SHARED →
          (s._addLock lockMode txn key).2._numExclusiveWaiting key = s._numExclusiveWaiting key)
      ∧ ((s._addLock lockMode txn key).1 = false →
          (s._addLock lockMode txn key).2.txn_waits_ txn = some ((s.txn_waits_ txn).getD 0 + 1))
      ∧ ((s._addLock lockMode txn key).1 = true →
          (s._addLock lockMode txn key).2.txn_waits_ txn = s.txn_waits_ txn)
      ∧ (s._addLock lockMode txn key).2.ready_txns_ = s.ready_txns_
      ∧ (∀ k, k ≠ key → (s._addLock lockMode txn key).2.lock_table_ k = s.lock_table_ k)
      ∧ (∀ k, k ≠ key →
          (s._addLock lockMode txn key).2._numExclusiveWaiting k = s._numExclusiveWaiting k)
      ∧ (∀ t, t ≠ txn → (s._addLock lockMode txn key).2.txn_waits_ t = s.txn_waits_ t) := by
  refine ⟨?_, ?_, ?_, ?_, ?_, ?_, ?_, ?_, ?_⟩
  · rw [LockManagerB.addLock_lock_table, setAt_same]
  · intro hm
    rw [LockManagerB.addLock_numExclusiveWaiting]
    simp [hm]
  · intro hm
    rw [LockManagerB.addLock_numExclusiveWaiting]
    simp [hm]
  · intro hg
    rw [LockManagerB.addLock_txn_waits]
    simp [hg]
  · intro hg
    rw [LockManagerB.addLock_txn_waits]
    simp [hg]
  · exact LockManagerB.addLock_ready_txns s lockMode txn key
  · intro k hk
    rw [LockManagerB.addLock_lock_table, setAt_ne _ _ hk]
  · intro k hk
    rw [LockManagerB.addLock_numExclusiveWaiting]
    split
    · rfl
    · exact setAt_ne _ _ hk
  · intro t ht
    rw [LockManagerB.addLock_txn_waits]
    split
    · rfl
    · exact setAt_ne _ _ ht

/-- C16: when no request in the queue of `key` belongs to `txn` (the queue may
be empty), `LockManagerA::Release` changes no queue, leaves `txn_waits_` as it
was and appends nothing to the ready deque. -/
theorem C16_A_Release_not_held (s : LockManagerA) (txn : Txn) (key : Key)
    (h : ∀ r ∈ s.lock_table_ key, r.txn_ ≠ txn) :
    (s.Release txn key).lock_table_ = s.lock_table_
      ∧ (s.Release txn key).txn_waits_ = s.txn_waits_
      ∧ (s.Release txn key).ready_txns_ = s.ready_txns_ := by
  rw [LockManagerA.Release_absent s txn key h]
  exact ⟨rfl, rfl, rfl⟩

/-- C16 at `exampleA`, where transaction `3` holds no request for key `5`. -/
theorem C16_A_Release_not_held_witness :
    (∀ r ∈ exampleA.lock_table_ 5, r.txn_ ≠ 3)
    ∧ ((exampleA.Release 3 5).lock_table_ = exampleA.lock_table_
      ∧ (exampleA.Release 3 5).txn_waits_ = exampleA.txn_waits_
      ∧ (exampleA.Release 3 5).ready_txns_ = exampleA.ready_txns_) :=
  ⟨by decide, C16_A_Release_not_held exampleA 3 5 (by decide)⟩

/-- C17: after any sequence of `WriteLock`/`ReadLock`/`Release` calls, with any
arguments, on a fresh manager of either variant, every entry of `txn_waits_`
is at least `1`. For `LockManagerB` this holds whatever the read of line 149
returns. -/
theorem C17_wait_entries_positive (ready_txns : List Txn) (cs : List Call) (slot : ErasedSlot) :
    (∀ t v, ((LockManagerA.new ready_txns).run cs).txn_waits_ t = some v → 1 ≤ v)
      ∧ (∀ t v, (LockManagerB.run slot (LockManagerB.new ready_txns) cs).txn_waits_ t = some v
          → 1 ≤ v) := by
  constructor
  · intro t v h
    obtain ⟨ks, hks⟩ := covers_run cs _ (covers_new ready_txns)
    have hI := WaitInv_run cs _ _ (WaitInv_new ready_txns) ks hks t
    rw [hI] at h
    exact waitEntry_positive _ t v h
  · apply LockManagerB.run_positive
    intro t v h
    simp [LockManagerB.new] at h

/-- C18: after `WriteLock(1, 5)` on a fresh manager the queue of key `5` holds
that request alone. `Release(1, 5)` empties the queue and appends nothing to
the ready deque, in both variants; but a `Status` query through a vector that
still holds the owner `[1]` of the query before the release returns `UNLOCKED`
and leaves `[1]` in the vector, where the claim has an empty owners list. -/
theorem C18_Status_after_cleanup_keeps_owners :
    (let sa := ((LockManagerA.new []).WriteLock 1 5).2
     let sb := ((LockManagerB.new []).WriteLock 1 5).2
     sa.lock_table_ 5 = [⟨EXCLUSIVE, 1⟩]
      ∧ sa.Status 5 [] = (EXCLUSIVE, [1])
      ∧ (sa.Release 1 5).lock_table_ 5 = []
      ∧ (sa.Release 1 5).ready_txns_ = []
      ∧ (sa.Release 1 5).Status 5 [1] = (UNLOCKED, [1])
      ∧ sb.lock_table_ 5 = [⟨EXCLUSIVE, 1⟩]
      ∧ sb.Status 5 (some []) = (EXCLUSIVE, some [1])
      ∧ ∀ slot : ErasedSlot,
          (LockManagerB.Release slot sb 1 5).lock_table_ 5 = []
          ∧ (LockManagerB.Release slot sb 1 5).ready_txns_ = []
          ∧ (LockManagerB.Release slot sb 1 5).Status 5 (some [1]) = (UNLOCKED, some [1])) := by
  intro sa sb
  refine ⟨by decide, by decide, by decide, by decide, by decide, by decide, by decide, ?_⟩
  intro slot
  have hq : sb.lock_table_ 5 = [⟨EXCLUSIVE, 1⟩] := by decide
  obtain ⟨h1, _, h3⟩ := LockManagerB.Release_sole slot sb 1 5 ⟨EXCLUSIVE, 1⟩ hq rfl
  refine ⟨h1, ?_, ?_⟩
  · rw [h3]
    decide
  · exact LockManagerB.Status_of_nil _ 5 _ h1

/-- C19: in a state of `LockManagerB` where `_numExclusiveWaiting[key]` is the
number of exclusive requests in the queue of `key`, and for a transaction with
no request in that queue, `ReadLock` returns true exactly when the transaction
is among the owners `Status` reports right after the call, and so does
`WriteLock`. -/
theorem C19_B_grant_agrees_with_owners (s : LockManagerB) (txn : Txn) (key : Key)
    (hcnt : s._numExclusiveWaiting key = (exclusiveCount (s.lock_table_ key) : Int))
    (hnew : ∀ r ∈ s.lock_table_ key, r.txn_ ≠ txn) :
    (∀ o, ∃ owners, ((s.ReadLock txn key).2.Status key (some o)).2 = some owners
        ∧ ((s.ReadLock txn key).1 = true ↔ txn ∈ owners))
      ∧ (∀ o, ∃ owners, ((s.WriteLock txn key).2.Status key (some o)).2 = some owners
        ∧ ((s.WriteLock txn key).1 = true ↔ txn ∈ owners)) := by
  have key_fact : ∀ m : LockMode, m = SHARED ∨ m = EXCLUSIVE →
      ∀ o, ∃ owners, ((s._addLock m txn key).2.Status key (some o)).2 = some owners
        ∧ ((s._addLock m txn key).1 = true ↔ txn ∈ owners) := by
    intro m hm o
    have hne : (s._addLock m txn key).2.lock_table_ key ≠ [] := by
      rw [LockManagerB.addLock_lock_table, setAt_same]
      simp
    refine ⟨_, LockManagerB.Status_snd _ key o hne, ?_⟩
    rw [LockManagerB.addLock_lock_table, setAt_same, LockManagerB.addLock_fst,
      LockManagerB.Status_fst]
    have hnotin : txn ∉ (s.lock_table_ key).map (·.txn_) := by
      intro hmem
      obtain ⟨r, hr, hrt⟩ := List.mem_map.mp hmem
      exact hnew r hr hrt
    by_cases hex : ∃ r ∈ s.lock_table_ key, r.mode_ = EXCLUSIVE
    · obtain ⟨h1, h2, h3⟩ := LockManagerB.statusLoop_stops (s.lock_table_ key)
        [⟨m, txn⟩] hex
      have hpos := exclusiveCount_pos _ hex
      have hqne : s.lock_table_ key ≠ [] := by
        obtain ⟨r, hr, _⟩ := hex
        exact List.ne_nil_of_mem hr
      rw [h1]
      simp only [hqne, if_false]
      constructor
      · rintro (hu | ⟨_, hz⟩)
        · exact absurd hu h2
        · rw [hcnt] at hz
          omega
      · intro hmem
        exact absurd (h3 txn hmem) hnotin
    · have hno : ∀ r ∈ s.lock_table_ key, r.mode_ ≠ EXCLUSIVE := by
        intro r hr hrm
        exact hex ⟨r, hr, hrm⟩
      have hz : s._numExclusiveWaiting key = 0 := by
        rw [hcnt, exclusiveCount_eq_zero _ hno]
        rfl
      have hafter := LockManagerB.statusLoop_append (s.lock_table_ key) [⟨m, txn⟩]
        EXCLUSIVE [] hno
      have hbefore := LockManagerB.statusLoop_append (s.lock_table_ key) [] EXCLUSIVE [] hno
      rw [List.append_nil] at hbefore
      rw [hafter, hbefore]
      simp only [LockManagerB.statusLoop, List.nil_append]
      rcases hm with hm | hm
      · subst hm
        simp [hz]
      · subst hm
        simp only [true_and, if_true]
        cases hq : s.lock_table_ key with
        | nil => simp [lastMode]
        | cons a rest =>
          have hl := LockManagerB.lastMode_ne_exclusive (s.lock_table_ key) SHARED hno
            (by decide)
          rw [hq] at hl hnotin
          have hl2 : lastMode (a :: rest) EXCLUSIVE = lastMode (a :: rest) SHARED := rfl
          rw [hl2]
          cases hlm : lastMode (a :: rest) SHARED with
          | UNLOCKED => simp
          | SHARED =>
            simp
            simpa using hnotin
          | EXCLUSIVE => exact absurd hlm hl
  exact ⟨key_fact SHARED (Or.inl rfl), key_fact EXCLUSIVE (Or.inr rfl)⟩

/-- C19 at `exampleB`, key `5` and the new transaction `4`. -/
theorem C19_B_grant_agrees_with_owners_witness :
    (exampleB._numExclusiveWaiting 5 = (exclusiveCount (exampleB.lock_table_ 5) : Int)
      ∧ ∀ r ∈ exampleB.lock_table_ 5, r.txn_ ≠ 4)
    ∧ ((∀ o, ∃ owners, ((exampleB.ReadLock 4 5).2.Status 5 (some o)).2 = some owners
        ∧ ((exampleB.ReadLock 4 5).1 = true ↔ 4 ∈ owners))
      ∧ (∀ o, ∃ owners, ((exampleB.WriteLock 4 5).2.Status 5 (some o)).2 = some owners
        ∧ ((exampleB.WriteLock 4 5).1 = true ↔ 4 ∈ owners))) :=
  ⟨⟨by decide, by decide⟩, C19_B_grant_agrees_with_owners exampleB 4 5 (by decide) (by decide)⟩

/-- C20: after any sequence of `WriteLock`/`ReadLock`/`Release` calls on a
fresh `LockManagerA` in which every `Release(txn, key)` is issued while the
head of the queue of `key` belongs to `txn`, a transaction has an entry in
`txn_waits_` exactly when one of its requests is behind the head of a queue,
and the value of the entry is the number of such requests over all keys (`ks`
covers the lock table). -/
theorem C20_A_wait_counter_owner_release (ready_txns : List Txn) (cs : List Call) (ks : List Key) (t : Txn)
    (hrel : releasesOwned (LockManagerA.new ready_txns) cs = true)
    (hks : Covers ((LockManagerA.new ready_txns).run cs).lock_table_ ks) :
    (let s := (LockManagerA.new ready_txns).run cs
     (s.txn_waits_ t ≠ none ↔ ∃ k, ∃ r ∈ (s.lock_table_ k).tail, r.txn_ = t)
      ∧ (∀ v, s.txn_waits_ t = some v → v = (pending s.lock_table_ ks t : Int))) := by
  intro s
  have h := WaitInv_run cs _ _ (WaitInv_new ready_txns) ks hks t
  simp only [Nat.zero_add, earlyReleases_of_releasesOwned cs _ t hrel, Nat.add_zero] at h
  have hs : s.txn_waits_ t = waitEntry (pending s.lock_table_ ks t) := h
  rw [← pending_pos_iff s.lock_table_ ks t hks, hs]
  unfold waitEntry
  by_cases hn : pending s.lock_table_ ks t = 0
  · simp [hn]
  · simp [hn]
    omega

/-- C20 at `ownerTrace`, the cover `[5, 6]` and transaction `2`. -/
theorem C20_A_wait_counter_owner_release_witness :
    (releasesOwned (LockManagerA.new []) ownerTrace = true
      ∧ Covers ((LockManagerA.new []).run ownerTrace).lock_table_ [5, 6])
    ∧ (let s := (LockManagerA.new []).run ownerTrace
       (s.txn_waits_ 2 ≠ none ↔ ∃ k, ∃ r ∈ (s.lock_table_ k).tail, r.txn_ = 2)
        ∧ (∀ v, s.txn_waits_ 2 = some v → v = (pending s.lock_table_ [5, 6] 2 : Int))) :=
  ⟨⟨by decide, ownerTrace_covers⟩,
    C20_A_wait_counter_owner_release [] ownerTrace [5, 6] 2 (by decide) ownerTrace_covers⟩

end LockMgr
